import Mathlib

/-!
# Verification of the data-sync ingestion engine

Shallow embedding of the cursor codec, timestamp partitioner, page/event
normalizer, rate limiter, worker fetch loop and transactional write queue of
the ingestion service, together with proofs of the specification's claims.

JavaScript numbers are embedded as exact arithmetic: integer-valued
quantities as `Int`/`Nat`, general numeric values as `Rat` (every value the
program manipulates is far below 2^53, where float64 arithmetic on integers
is exact, and the proved properties of the one genuinely fractional
computation, the partition width, are insensitive to rounding). Strings are
embedded as `List Char`.
-/

namespace DataSync

/-- A half-open timestamp interval assigned to one worker: `TimestampChunk`
from `types.ts`, with fields `startTs` (inclusive) and `endTs` (exclusive). -/
structure TimestampChunk where
  startTs : Int
  endTs : Int
deriving Repr, DecidableEq

/-- Start boundary of chunk `i`: `Math.floor(startTs + width * i)` where
`width = (endTs - startTs) / count`, from `createTimestampChunks` in
`cursor-forge.ts`. -/
def chunkStartAt (startTs endTs : Int) (count i : Nat) : Int :=
  ⌊(startTs : ℚ) + ((endTs : ℚ) - (startTs : ℚ)) / (count : ℚ) * (i : ℚ)⌋

/-- `createTimestampChunks(startTs, endTs, count)` from `cursor-forge.ts`:
divide the time range into `count` uniform-width chunks; every chunk `i`
spans `[floor(startTs + width*i), floor(startTs + width*(i+1)))` except the
last, whose upper bound is `endTs + 1` so events exactly at `endTs` are
covered. -/
def createTimestampChunks (startTs endTs : Int) (count : Nat) : List TimestampChunk :=
  (List.range count).map fun i =>
    { startTs := chunkStartAt startTs endTs count i
      endTs := if i = count - 1 then endTs + 1 else chunkStartAt startTs endTs count (i + 1) }

/-- Membership of a timestamp in a chunk: inclusive start, exclusive end. -/
def chunkMem (c : TimestampChunk) (t : Int) : Prop :=
  c.startTs ≤ t ∧ t < c.endTs

instance (c : TimestampChunk) (t : Int) : Decidable (chunkMem c t) := by
  unfold chunkMem; infer_instance

/-- The partition properties claimed of `createTimestampChunks a b N`:
`N` chunks, first starts at `a`, last ends at `b + 1`, consecutive chunks
share their boundary, chunks at distinct positions are pairwise disjoint,
and every timestamp of `[a, b]` lies in some chunk. -/
def ChunksPartitionSpec (a b : Int) (N : Nat) : Prop :=
  (createTimestampChunks a b N).length = N
  ∧ (∀ c, (createTimestampChunks a b N).head? = some c → c.startTs = a)
  ∧ (∀ c, (createTimestampChunks a b N).getLast? = some c → c.endTs = b + 1)
  ∧ (∀ (i : Nat) ci ci1, (createTimestampChunks a b N)[i]? = some ci →
      (createTimestampChunks a b N)[i + 1]? = some ci1 → ci.endTs = ci1.startTs)
  ∧ (∀ (i j : Nat) ci cj, i < j → (createTimestampChunks a b N)[i]? = some ci →
      (createTimestampChunks a b N)[j]? = some cj →
      ∀ t : Int, chunkMem ci t → ¬ chunkMem cj t)
  ∧ (∀ t : Int, a ≤ t → t ≤ b → ∃ c ∈ createTimestampChunks a b N, chunkMem c t)

section ChunkLemmas

variable {a b : Int} {N : Nat}

lemma createTimestampChunks_getElem? (a b : Int) (N i : Nat) (hi : i < N) :
    (createTimestampChunks a b N)[i]? =
      some { startTs := chunkStartAt a b N i
             endTs := if i = N - 1 then b + 1 else chunkStartAt a b N (i + 1) } := by
  simp [createTimestampChunks, List.getElem?_map, List.getElem?_range, hi]

lemma createTimestampChunks_length (a b : Int) (N : Nat) :
    (createTimestampChunks a b N).length = N := by
  simp [createTimestampChunks]

lemma chunkStartAt_zero (a b : Int) (N : Nat) : chunkStartAt a b N 0 = a := by
  simp [chunkStartAt]

lemma chunkStartAt_mono (hab : a < b) {i j : Nat} (hij : i ≤ j) :
    chunkStartAt a b N i ≤ chunkStartAt a b N j := by
  apply Int.floor_le_floor
  have hw : (0 : ℚ) ≤ ((b : ℚ) - a) / N := by
    apply div_nonneg
    · have : (a : ℚ) < b := by exact_mod_cast hab
      linarith
    · positivity
  have hij' : (i : ℚ) ≤ (j : ℚ) := by exact_mod_cast hij
  have hmul := mul_le_mul_of_nonneg_left hij' hw
  linarith

/-- A strictly increasing-index search: between an index whose boundary is
below `t` and one whose boundary is above, some consecutive pair brackets
`t`. -/
lemma exists_bracket (s : Nat → Int) (t : Int) :
    ∀ k, s 0 ≤ t → t < s k → ∃ i, i + 1 ≤ k ∧ s i ≤ t ∧ t < s (i + 1)
  | 0, h0, hk => absurd hk (not_lt.mpr h0)
  | (k + 1), h0, hk => by
    by_cases hsk : s k ≤ t
    · exact ⟨k, le_refl _, hsk, hk⟩
    · obtain ⟨i, hik, hi, hi1⟩ := exists_bracket s t k h0 (not_le.mp hsk)
      exact ⟨i, Nat.le_succ_of_le hik, hi, hi1⟩

end ChunkLemmas

/-- C3: for every partition count `N ≥ 1` and integer range `[a, b]` with
`a < b`, `createTimestampChunks a b N` returns `N` chunks whose first starts
at `a`, whose last ends at `b + 1`, with each chunk's `endTs` equal to the
next chunk's `startTs`, pairwise-disjoint half-open intervals, and whose
union covers `[a, b]`. -/
theorem createTimestampChunks_partitions (a b : Int) (N : Nat)
    (hN : 1 ≤ N) (hab : a < b) : ChunksPartitionSpec a b N := by
  have hlen := createTimestampChunks_length a b N
  have hget := createTimestampChunks_getElem? a b N
  refine ⟨hlen, ?_, ?_, ?_, ?_, ?_⟩
  · -- first chunk starts at a
    intro c hc
    have h0 : 0 < N := hN
    rw [List.head?_eq_getElem?] at hc
    rw [hget 0 h0] at hc
    cases hc
    exact chunkStartAt_zero a b N
  · -- last chunk ends at b + 1
    intro c hc
    have h0 : 0 < N := hN
    have hN1 : N - 1 < N := Nat.sub_lt h0 Nat.one_pos
    rw [List.getLast?_eq_getElem?, hlen] at hc
    rw [hget (N - 1) hN1] at hc
    cases hc
    simp
  · -- consecutive chunks share a boundary
    intro i ci ci1 hci hci1
    have hi1 : i + 1 < N := by
      by_contra h
      rw [List.getElem?_eq_none] at hci1
      · exact Option.noConfusion hci1
      · omega
    have hi : i < N := by omega
    rw [hget i hi] at hci
    rw [hget (i + 1) hi1] at hci1
    cases hci; cases hci1
    have : i ≠ N - 1 := by omega
    simp [this]
  · -- pairwise disjoint
    intro i j ci cj hij hci hcj t hti htj
    have hj : j < N := by
      by_contra h
      rw [List.getElem?_eq_none] at hcj
      · exact Option.noConfusion hcj
      · omega
    have hi : i < N := by omega
    rw [hget i hi] at hci
    rw [hget j hj] at hcj
    cases hci; cases hcj
    have hine : i ≠ N - 1 := by omega
    have hub : t < chunkStartAt a b N (i + 1) := by
      have := hti.2
      simpa [hine] using this
    have hmono : chunkStartAt a b N (i + 1) ≤ chunkStartAt a b N j :=
      chunkStartAt_mono hab (by omega)
    have := htj.1
    simp only [chunkMem] at *
    omega
  · -- union covers [a, b]
    intro t hat htb
    by_cases hlast : chunkStartAt a b N (N - 1) ≤ t
    · have hm := List.getElem?_mem (hget (N - 1) (Nat.sub_lt hN Nat.one_pos))
      refine ⟨_, hm, hlast, ?_⟩
      simpa using (by omega : t < b + 1)
    · have h0 : chunkStartAt a b N 0 ≤ t := by rw [chunkStartAt_zero]; exact hat
      obtain ⟨i, hik, hi, hi1⟩ :=
        exists_bracket (chunkStartAt a b N) t (N - 1) h0 (not_le.mp hlast)
      have hiN : i < N := by omega
      have hine : i ≠ N - 1 := by omega
      refine ⟨_, List.getElem?_mem (hget i hiN), ?_⟩
      exact ⟨hi, by simpa [hine] using hi1⟩

/-- Witness for C3 at the concrete range `[1000, 2000]` split four ways. -/
theorem createTimestampChunks_partitions_witness :
    (1 ≤ 4 ∧ (1000 : Int) < 2000) ∧ ChunksPartitionSpec 1000 2000 4 :=
  ⟨⟨by decide, by decide⟩,
    createTimestampChunks_partitions 1000 2000 4 (by decide) (by decide)⟩

/-! ## Rate limiter (`rate-limit.ts`) -/

/-- The shared rate limiter's mutable state (`RateLimitState` in
`rate-limit.ts`). Header-derived numbers may be fractional, so they are
embedded as `Rat`. -/
structure RateLimitState where
  remaining : Option ℚ
  limit : Option ℚ
  resetAtMs : Option ℚ
  adaptiveDelayMs : ℚ
  consecutive429s : Nat
deriving Repr, DecidableEq

/-- `getPreRequestDelayMs()` from `rate-limit.ts`, with the clock passed
explicitly: when `remaining ≤ 1` and the reset time lies in the future,
return the wait until reset plus a 100 ms buffer; in every other case fall
through to the adaptive delay. -/
def getPreRequestDelayMs (s : RateLimitState) (now : ℚ) : ℚ :=
  match s.remaining, s.resetAtMs with
  | some r, some resetAt =>
    if r ≤ 1 then
      if 0 < resetAt - now then resetAt - now + 100 else s.adaptiveDelayMs
    else s.adaptiveDelayMs
  | _, _ => s.adaptiveDelayMs

/-- `recordSuccess()` from `rate-limit.ts`: only when the consecutive-429
counter is positive, reset it and decay the adaptive delay by `0.5`,
snapping results below 100 ms to 0. -/
def recordSuccess (s : RateLimitState) : RateLimitState :=
  if 0 < s.consecutive429s then
    let a1 := max (s.adaptiveDelayMs * (1 / 2 : ℚ)) 0
    let a2 := if a1 < 100 then 0 else a1
    { s with consecutive429s := 0, adaptiveDelayMs := a2 }
  else s

/-- C5 counterexample: in the state `remaining = 1`, `resetAtMs = 50`,
`adaptiveDelayMs = 8000` at `now = 0`, the header-derived wait applies
(`remaining ≤ 1`, reset in the future) and `adaptiveDelayMs` is larger, yet
the code returns the header wait `50 − 0 + 100 = 150`, not
`max 150 8000 = 8000` as the claim states. -/
theorem getPreRequestDelayMs_not_adaptive_max :
    getPreRequestDelayMs ⟨some 1, none, some 50, 8000, 0⟩ 0 = 150 ∧
      (150 : ℚ) ≠ max 150 8000 := by
  constructor
  · norm_num [getPreRequestDelayMs]
  · norm_num

/-- C5 amended: whenever `remaining ≤ 1` and `resetAtMs > now`, the
pre-request delay is the header-derived wait `resetAtMs − now + 100`
regardless of `adaptiveDelayMs` — the adaptive delay is returned only when
no header-derived wait applies. -/
theorem getPreRequestDelayMs_header_wait (s : RateLimitState) (now r resetAt : ℚ)
    (hr : s.remaining = some r) (hr1 : r ≤ 1)
    (hz : s.resetAtMs = some resetAt) (hfut : now < resetAt) :
    getPreRequestDelayMs s now = resetAt - now + 100 := by
  have hpos : 0 < resetAt - now := sub_pos.mpr hfut
  simp [getPreRequestDelayMs, hr, hz, hr1, hpos]

/-- Witness for the amended C5 at the concrete state of the counterexample. -/
theorem getPreRequestDelayMs_header_wait_witness :
    ((⟨some 1, none, some 50, 8000, 0⟩ : RateLimitState).remaining = some 1 ∧
        (1 : ℚ) ≤ 1 ∧
        (⟨some 1, none, some 50, 8000, 0⟩ : RateLimitState).resetAtMs = some 50 ∧
        (0 : ℚ) < 50) ∧
      getPreRequestDelayMs ⟨some 1, none, some 50, 8000, 0⟩ 0 = 50 - 0 + 100 :=
  ⟨⟨rfl, le_refl 1, rfl, by norm_num⟩,
    getPreRequestDelayMs_header_wait ⟨some 1, none, some 50, 8000, 0⟩ 0 1 50
      rfl (le_refl 1) rfl (by norm_num)⟩

/-- C6 counterexample: in the state `adaptiveDelayMs = 4000`,
`consecutive429s = 0`, `recordSuccess` leaves the adaptive delay at `4000`
instead of halving it to `2000` as the claim states for a counter of 0. -/
theorem recordSuccess_noop_at_zero_counter :
    (recordSuccess ⟨none, none, none, 4000, 0⟩).adaptiveDelayMs = 4000 ∧
      (4000 : ℚ) ≠ 4000 * (1 / 2) := by
  constructor
  · norm_num [recordSuccess]
  · norm_num

/-- C6 amended: for every state with `adaptiveDelayMs ≥ 0`, `recordSuccess`
halves `adaptiveDelayMs` (snapping to 0 below 100 ms) and resets the
consecutive-429 counter only when that counter is positive; when the counter
is already 0 the state is left unchanged. -/
theorem recordSuccess_spec (s : RateLimitState) (h : 0 ≤ s.adaptiveDelayMs) :
    recordSuccess s =
      if 0 < s.consecutive429s then
        { s with consecutive429s := 0
                 adaptiveDelayMs :=
                   if s.adaptiveDelayMs / 2 < 100 then 0 else s.adaptiveDelayMs / 2 }
      else s := by
  unfold recordSuccess
  have hhalf : s.adaptiveDelayMs * (1 / 2 : ℚ) = s.adaptiveDelayMs / 2 := by ring
  have hmax : max (s.adaptiveDelayMs * (1 / 2 : ℚ)) 0 = s.adaptiveDelayMs / 2 := by
    rw [hhalf, max_eq_left (by linarith)]
  by_cases hc : 0 < s.consecutive429s
  · simp only [if_pos hc, hmax]
  · simp only [if_neg hc]

/-- Witness for the amended C6 at the state `adaptiveDelayMs = 4000`,
`consecutive429s = 2`. -/
theorem recordSuccess_spec_witness :
    (0 : ℚ) ≤ (⟨none, none, none, 4000, 2⟩ : RateLimitState).adaptiveDelayMs ∧
      recordSuccess ⟨none, none, none, 4000, 2⟩ =
        if 0 < (⟨none, none, none, 4000, 2⟩ : RateLimitState).consecutive429s then
          { (⟨none, none, none, 4000, 2⟩ : RateLimitState) with
              consecutive429s := 0
              adaptiveDelayMs :=
                if (⟨none, none, none, 4000, 2⟩ : RateLimitState).adaptiveDelayMs / 2 < 100
                then 0
                else (⟨none, none, none, 4000, 2⟩ : RateLimitState).adaptiveDelayMs / 2 }
        else ⟨none, none, none, 4000, 2⟩ :=
  ⟨by norm_num, recordSuccess_spec ⟨none, none, none, 4000, 2⟩ (by norm_num)⟩

/-! ## Repositories (`events-repo.ts`, `worker-state-repo.ts`) and the
write queue (`db-queue.ts`) -/

/-- An ingestion event `{eventId, timestampMs, payload}` from `types.ts`;
also the row shape of the `ingested_events` table (the payload is the
serialized raw record, carried opaquely). -/
structure IngestionEvent where
  eventId : List Char
  timestampMs : Int
  payload : List Char
deriving Repr, DecidableEq

/-- Worker status literals from `types.ts`. -/
inductive WorkerStatus where
  | running
  | completed
  | failed
deriving Repr, DecidableEq

/-- A `worker_checkpoints` row (`schema.ts`). -/
structure CheckpointRow where
  workerId : Nat
  chunkStartTs : Int
  chunkEndTs : Int
  cursor : Option (List Char)
  lastTs : Option Int
  fetchedCount : Nat
  insertedCount : Nat
  status : WorkerStatus
deriving Repr, DecidableEq

/-- The mutable checkpoint columns written by `upsertWorkerCheckpoint`
(`worker-state-repo.ts`), as carried by a write task. -/
structure CheckpointPayload where
  workerId : Nat
  cursor : Option (List Char)
  lastTs : Option Int
  fetchedCount : Nat
  insertedCount : Nat
  status : WorkerStatus
deriving Repr, DecidableEq

/-- Whether the table already holds a row with this event id. -/
def hasEventId (table : List IngestionEvent) (id : List Char) : Bool :=
  table.any fun row => row.eventId == id

/-- `insertEvents` from `events-repo.ts`: bulk insert with
`ON CONFLICT (event_id) DO NOTHING`; rows whose id already exists in the
table (or earlier in the same statement) are skipped, and the count of rows
actually inserted is returned. Empty input inserts nothing and returns 0. -/
def insertEvents (table : List IngestionEvent) (events : List IngestionEvent) :
    List IngestionEvent × Nat :=
  events.foldl
    (fun acc e => if hasEventId acc.1 e.eventId then acc else (acc.1 ++ [e], acc.2 + 1))
    (table, 0)

/-- `upsertWorkerCheckpoint` from `worker-state-repo.ts`: a plain SQL
`UPDATE ... WHERE worker_id = $1` setting all mutable columns. Rows with a
different id are untouched; when no row matches, the statement affects
nothing and raises no error. -/
def upsertWorkerCheckpoint (rows : List CheckpointRow) (cp : CheckpointPayload) :
    List CheckpointRow :=
  rows.map fun r =>
    if r.workerId = cp.workerId then
      { r with cursor := cp.cursor, lastTs := cp.lastTs
               fetchedCount := cp.fetchedCount, insertedCount := cp.insertedCount
               status := cp.status }
    else r

/-- A fresh checkpoint row as created by `initializeWorkerCheckpoints`:
only `worker_id` and the chunk bounds are set; the remaining columns take
their schema defaults. -/
def initialCheckpointRow (i : Nat) (c : TimestampChunk) : CheckpointRow :=
  { workerId := i, chunkStartTs := c.startTs, chunkEndTs := c.endTs
    cursor := none, lastTs := none, fetchedCount := 0, insertedCount := 0
    status := .running }

/-- One step of `initializeWorkerCheckpoints`: insert the row for worker
`ic.1` owning chunk `ic.2` unless a row with that id exists
(`ON CONFLICT (worker_id) DO NOTHING`). -/
def initCheckpointStep (acc : List CheckpointRow) (ic : Nat × TimestampChunk) :
    List CheckpointRow :=
  if acc.any (fun r => r.workerId == ic.1) then acc
  else acc ++ [initialCheckpointRow ic.1 ic.2]

/-- `initializeWorkerCheckpoints` from `worker-state-repo.ts`: one row per
chunk, `worker_id` being the chunk index, conflict-do-nothing. -/
def initializeWorkerCheckpoints (rows : List CheckpointRow)
    (chunks : List TimestampChunk) : List CheckpointRow :=
  chunks.enum.foldl initCheckpointStep rows

/-! ### The write queue's transaction -/

/-- The relational store: the `ingested_events` and `worker_checkpoints`
tables. -/
structure DbState where
  events : List IngestionEvent
  checkpoints : List CheckpointRow
deriving Repr, DecidableEq

/-- A pooled connection as `executeWrite` sees it: the committed database,
plus the uncommitted working state while a transaction is open. Statements
inside the transaction act on the working state; `COMMIT` publishes it;
`ROLLBACK` discards it. -/
structure PgClient where
  committed : DbState
  txn : Option DbState
deriving Repr, DecidableEq

def qBegin (c : PgClient) : PgClient := { c with txn := some c.committed }

def qRollback (c : PgClient) : PgClient := { c with txn := none }

def qCommit (c : PgClient) : PgClient :=
  { committed := c.txn.getD c.committed, txn := none }

/-- Run the bulk insert on the open transaction (or autocommit), returning
the inserted-row count alongside the connection. -/
def qInsertEvents (c : PgClient) (events : List IngestionEvent) : PgClient × Nat :=
  match c.txn with
  | some st =>
    let r := insertEvents st.events events
    ({ c with txn := some { st with events := r.1 } }, r.2)
  | none =>
    let r := insertEvents c.committed.events events
    ({ c with committed := { c.committed with events := r.1 } }, r.2)

/-- Run the checkpoint update on the open transaction (or autocommit). -/
def qUpsertCheckpoint (c : PgClient) (cp : CheckpointPayload) : PgClient :=
  match c.txn with
  | some st =>
    { c with txn := some { st with checkpoints := upsertWorkerCheckpoint st.checkpoints cp } }
  | none =>
    { c with committed :=
        { c.committed with checkpoints := upsertWorkerCheckpoint c.committed.checkpoints cp } }

/-- A write-queue task (`db-queue.ts`): the filtered batch plus the
checkpoint snapshot committed with it. -/
structure WriteTask where
  events : List IngestionEvent
  checkpoint : CheckpointPayload
deriving Repr, DecidableEq

/-- Failure injection for `executeWrite`: which statement of the task (if
any) throws a driver error. -/
inductive WriteFailure where
  | noFail
  | atInsert
  | atUpsert
  | atCommit
deriving Repr, DecidableEq

/-- The database error rethrown by a failing step. -/
inductive DbErr where
  | insertErr
  | upsertErr
  | commitErr
deriving Repr, DecidableEq

/-- `executeWrite` from `db-queue.ts`: `BEGIN` → `insertEvents` →
`upsertWorkerCheckpoint` → `COMMIT`; on any error, best-effort `ROLLBACK`
and a rethrow. A failed `COMMIT` aborts the transaction, so nothing is
published. The first component's `committed` field is the database state
visible to every other connection. -/
def executeWrite (db : DbState) (task : WriteTask) (fail : WriteFailure) :
    PgClient × Except DbErr Nat :=
  let c0 := qBegin { committed := db, txn := none }
  if fail = .atInsert then
    (qRollback c0, .error .insertErr)
  else
    let r1 := qInsertEvents c0 task.events
    if fail = .atUpsert then
      (qRollback r1.1, .error .upsertErr)
    else
      let c2 := qUpsertCheckpoint r1.1 task.checkpoint
      if fail = .atCommit then
        (qRollback c2, .error .commitErr)
      else
        (qCommit c2, .ok r1.2)

/-- C1: each write task is one transaction. On a clean run the committed
database holds both the bulk-inserted events and the updated checkpoint row
together and the actually-inserted count is returned; when any step throws,
the error is rethrown and the committed database is exactly the pre-task
one, so the checkpoint never leads or lags its batch. In both cases no
transaction is left open. -/
theorem executeWrite_atomic (db : DbState) (task : WriteTask) (fail : WriteFailure) :
    (executeWrite db task fail).1.committed =
      (if fail = .noFail then
        { events := (insertEvents db.events task.events).1
          checkpoints := upsertWorkerCheckpoint db.checkpoints task.checkpoint }
       else db)
    ∧ (executeWrite db task fail).2 =
      (if fail = .noFail then .ok (insertEvents db.events task.events).2
       else .error (match fail with
         | .atInsert => .insertErr
         | .atUpsert => .upsertErr
         | _ => .commitErr))
    ∧ (executeWrite db task fail).1.txn = none := by
  cases fail <;>
    simp [executeWrite, qBegin, qRollback, qCommit, qInsertEvents, qUpsertCheckpoint]

/-! ### C9: the checkpoint UPDATE persists only initialized rows -/

lemma upsertWorkerCheckpoint_of_absent (rows : List CheckpointRow)
    (cp : CheckpointPayload) (habsent : ∀ r ∈ rows, r.workerId ≠ cp.workerId) :
    upsertWorkerCheckpoint rows cp = rows := by
  unfold upsertWorkerCheckpoint
  have h : ∀ r ∈ rows,
      (if r.workerId = cp.workerId then
        { r with cursor := cp.cursor, lastTs := cp.lastTs
                 fetchedCount := cp.fetchedCount, insertedCount := cp.insertedCount
                 status := cp.status }
       else r) = id r := by
    intro r hr
    simp [habsent r hr]
  exact (List.map_congr_left h).trans (List.map_id rows)

lemma initCheckpointStep_subset (acc : List CheckpointRow) (ic : Nat × TimestampChunk) :
    ∀ r ∈ acc, r ∈ initCheckpointStep acc ic := by
  intro r hr
  unfold initCheckpointStep
  by_cases h : acc.any (fun row => row.workerId == ic.1) <;> simp [h, hr]

lemma foldl_initCheckpointStep_subset (l : List (Nat × TimestampChunk)) :
    ∀ acc, ∀ r ∈ acc, r ∈ l.foldl initCheckpointStep acc := by
  induction l with
  | nil => intro acc r hr; exact hr
  | cons ic rest ih =>
    intro acc r hr
    exact ih (initCheckpointStep acc ic) r (initCheckpointStep_subset acc ic r hr)

lemma foldl_initCheckpointStep_mem (l : List (Nat × TimestampChunk)) :
    ∀ acc (i : Nat) (c : TimestampChunk), (i, c) ∈ l →
      ∃ r ∈ l.foldl initCheckpointStep acc, r.workerId = i := by
  induction l with
  | nil => intro acc i c h; cases h
  | cons ic rest ih =>
    intro acc i c h
    rcases List.mem_cons.mp h with heq | hrest
    · -- the head step either finds an existing row with this id or adds one
      rcases heq
      by_cases hany : acc.any (fun row => row.workerId == i)
      · obtain ⟨r, hr, hid⟩ := List.any_eq_true.mp hany
        refine ⟨r, ?_, by simpa using hid⟩
        exact foldl_initCheckpointStep_subset rest (initCheckpointStep acc (i, c)) r
          (initCheckpointStep_subset acc (i, c) r hr)
      · have hmem : initialCheckpointRow i c ∈ initCheckpointStep acc (i, c) := by
          unfold initCheckpointStep
          simp only [hany, if_neg]
          simp
        exact ⟨initialCheckpointRow i c,
          foldl_initCheckpointStep_subset rest _ _ hmem, rfl⟩
    · exact ih (initCheckpointStep acc ic) i c hrest

/-- C9: `upsertWorkerCheckpoint` is a plain `UPDATE`. When no row of
`worker_checkpoints` carries the payload's `workerId`, it matches zero rows
and completes leaving the table exactly unchanged — no row is created — so
a checkpoint is persisted only when `initializeWorkerCheckpoints` created
the row for that `workerId` beforehand, in which case the same upsert does
persist every checkpoint column. -/
theorem upsertWorkerCheckpoint_requires_initialized
    (rows : List CheckpointRow) (chunks : List TimestampChunk) (cp : CheckpointPayload)
    (habsent : ∀ r ∈ rows, r.workerId ≠ cp.workerId)
    (hlt : cp.workerId < chunks.length) :
    upsertWorkerCheckpoint rows cp = rows
    ∧ ∃ r ∈ upsertWorkerCheckpoint (initializeWorkerCheckpoints rows chunks) cp,
        r.workerId = cp.workerId ∧ r.cursor = cp.cursor ∧ r.lastTs = cp.lastTs
        ∧ r.fetchedCount = cp.fetchedCount ∧ r.insertedCount = cp.insertedCount
        ∧ r.status = cp.status := by
  refine ⟨upsertWorkerCheckpoint_of_absent rows cp habsent, ?_⟩
  have henum : (cp.workerId, chunks[cp.workerId]) ∈ chunks.enum := by
    apply List.getElem?_mem (n := cp.workerId)
    simp [List.enum, List.getElem?_eq_getElem hlt]
  obtain ⟨r, hr, hid⟩ :=
    foldl_initCheckpointStep_mem chunks.enum rows cp.workerId chunks[cp.workerId] henum
  refine ⟨{ r with cursor := cp.cursor, lastTs := cp.lastTs
                   fetchedCount := cp.fetchedCount, insertedCount := cp.insertedCount
                   status := cp.status }, ?_, ?_⟩
  · unfold upsertWorkerCheckpoint
    have : (fun row : CheckpointRow =>
        if row.workerId = cp.workerId then
          { row with cursor := cp.cursor, lastTs := cp.lastTs
                     fetchedCount := cp.fetchedCount, insertedCount := cp.insertedCount
                     status := cp.status }
        else row) r =
        { r with cursor := cp.cursor, lastTs := cp.lastTs
                 fetchedCount := cp.fetchedCount, insertedCount := cp.insertedCount
                 status := cp.status } := by
      simp [hid]
    exact this ▸ List.mem_map_of_mem _ hr
  · exact ⟨hid, rfl, rfl, rfl, rfl, rfl⟩

/-- Witness for C9 at a concrete empty table and a two-chunk layout. -/
theorem upsertWorkerCheckpoint_requires_initialized_witness :
    ((∀ r ∈ ([] : List CheckpointRow), r.workerId ≠ 1) ∧
        1 < ([⟨0, 10⟩, ⟨10, 21⟩] : List TimestampChunk).length) ∧
      (upsertWorkerCheckpoint []
          ⟨1, some ['c'], some 7, 3, 2, .running⟩ = []
        ∧ ∃ r ∈ upsertWorkerCheckpoint
              (initializeWorkerCheckpoints [] [⟨0, 10⟩, ⟨10, 21⟩])
              ⟨1, some ['c'], some 7, 3, 2, .running⟩,
            r.workerId = 1 ∧ r.cursor = some ['c'] ∧ r.lastTs = some 7
            ∧ r.fetchedCount = 3 ∧ r.insertedCount = 2 ∧ r.status = .running) :=
  ⟨⟨by simp, by decide⟩,
    upsertWorkerCheckpoint_requires_initialized [] [⟨0, 10⟩, ⟨10, 21⟩]
      ⟨1, some ['c'], some 7, 3, 2, .running⟩ (by simp) (by decide)⟩

/-! ## Cursor codec (`cursor-forge.ts`)

`forgeCursor` serializes `{id, ts, v, exp}` with `JSON.stringify`, UTF-8
encodes it, base64-encodes the bytes, applies the URL-safe substitutions
and strips the `=` padding. `decodeCursorTimestamp` inverts the pipeline
with `JSON.parse` and extracts `ts`. The JSON built-ins are modelled on the
fragment cursor payloads inhabit: a flat object of integer numbers and
escape-free strings, no whitespace. The byte-level codec models Node's
`Buffer` base64: the encoder emits the unpadded form directly (the code
strips the padding), and the decoder accepts unpadded input. UTF-8 is
modelled on ASCII, which is all the payload ever contains. -/

/-- Opening brace character (written by code point to keep it out of
character literals). -/
def lbrace : Char := Char.ofNat 123

/-- Closing brace character. -/
def rbrace : Char := Char.ofNat 125

/-- The base64 alphabet, in encoder order. -/
def b64Alphabet : List Char :=
  "ABCDEFGHIJKLMNOPQRSTUVWXYZabcdefghijklmnopqrstuvwxyz0123456789+/".data

/-- Character for a sextet value. -/
def b64Char (n : Nat) : Char := b64Alphabet.getD n 'A'

/-- Sextet value of a base64 character; `none` outside the alphabet. -/
def b64Val (c : Char) : Option Nat := b64Alphabet.findIdx? (fun x => x == c)

/-- Base64-encode a byte list, 3 bytes to 4 characters, emitting the
unpadded tail form for a 1- or 2-byte remainder. -/
def b64EncodeBytes : List Nat → List Char
  | b0 :: b1 :: b2 :: rest =>
    b64Char (b0 / 4) :: b64Char (b0 % 4 * 16 + b1 / 16) ::
      b64Char (b1 % 16 * 4 + b2 / 64) :: b64Char (b2 % 64) :: b64EncodeBytes rest
  | [b0, b1] => [b64Char (b0 / 4), b64Char (b0 % 4 * 16 + b1 / 16), b64Char (b1 % 16 * 4)]
  | [b0] => [b64Char (b0 / 4), b64Char (b0 % 4 * 16)]
  | [] => []

/-- Base64-decode an unpadded character list, 4 characters to 3 bytes with
2- or 3-character remainders yielding 1 or 2 bytes; `none` on a character
outside the alphabet. -/
def b64DecodeChars : List Char → Option (List Nat)
  | c0 :: c1 :: c2 :: c3 :: rest => do
    let s0 ← b64Val c0
    let s1 ← b64Val c1
    let s2 ← b64Val c2
    let s3 ← b64Val c3
    let tail ← b64DecodeChars rest
    pure ((s0 * 4 + s1 / 16) :: (s1 % 16 * 16 + s2 / 4) :: (s2 % 4 * 64 + s3) :: tail)
  | [c0, c1, c2] => do
    let s0 ← b64Val c0
    let s1 ← b64Val c1
    let s2 ← b64Val c2
    pure [s0 * 4 + s1 / 16, s1 % 16 * 16 + s2 / 4]
  | [c0, c1] => do
    let s0 ← b64Val c0
    let s1 ← b64Val c1
    pure [s0 * 4 + s1 / 16]
  | [_] => some []
  | [] => some []

/-- The URL-safe substitution of `toBase64Url`. -/
def toUrlSafeChar (c : Char) : Char :=
  if c = '+' then '-' else if c = '/' then '_' else c

/-- The inverse substitution of `fromBase64Url`. -/
def fromUrlSafeChar (c : Char) : Char :=
  if c = '-' then '+' else if c = '_' then '/' else c

/-- `Buffer.from(str, 'utf-8')` on the ASCII strings the codec handles:
byte `i` is the code of character `i`. -/
def strBytes (s : List Char) : List Nat := s.map Char.toNat

/-- `buf.toString('utf-8')` on ASCII bytes. -/
def bytesStr (bs : List Nat) : List Char := bs.map Char.ofNat

/-- `toBase64Url` from `cursor-forge.ts`. -/
def toBase64Url (s : List Char) : List Char :=
  (b64EncodeBytes (strBytes s)).map toUrlSafeChar

/-- `fromBase64Url` from `cursor-forge.ts`. -/
def fromBase64Url (s : List Char) : Option (List Char) :=
  (b64DecodeChars (s.map fromUrlSafeChar)).map bytesStr

/-! ### JSON fragment -/

/-- JSON values in the fragment cursor payloads inhabit. -/
inductive JsonPrim where
  | jnum (n : Int)
  | jstr (s : List Char)
  | jbool (b : Bool)
  | jnull
deriving Repr, DecidableEq

/-- Decimal digit character. -/
def digitChar : Nat → Char
  | 0 => '0' | 1 => '1' | 2 => '2' | 3 => '3' | 4 => '4'
  | 5 => '5' | 6 => '6' | 7 => '7' | 8 => '8' | _ => '9'

/-- Decimal rendering with explicit fuel (kept structural so the kernel can
evaluate it); `fuel > n` always suffices. -/
def natDecimalAux : Nat → Nat → List Char
  | 0, _ => []
  | fuel + 1, n =>
    if n < 10 then [digitChar n]
    else natDecimalAux fuel (n / 10) ++ [digitChar (n % 10)]

/-- Decimal rendering of a natural number, most significant digit first. -/
def natDecimal (n : Nat) : List Char := natDecimalAux (n + 1) n

/-- `JSON.stringify` of an integer JS number (int64 magnitudes print in
plain decimal). -/
def intDecimal (n : Int) : List Char :=
  if n < 0 then '-' :: natDecimal n.natAbs else natDecimal n.toNat

/-- `JSON.stringify` of a primitive value. -/
def stringifyPrim : JsonPrim → List Char
  | .jnum n => intDecimal n
  | .jstr s => '"' :: s ++ ['"']
  | .jbool true => ['t', 'r', 'u', 'e']
  | .jbool false => ['f', 'a', 'l', 's', 'e']
  | .jnull => ['n', 'u', 'l', 'l']

/-- `JSON.stringify` of the members of a flat object, comma-separated, in
insertion order, without spaces. -/
def stringifyMembers : List (List Char × JsonPrim) → List Char
  | [] => []
  | [(k, v)] => '"' :: k ++ '"' :: ':' :: stringifyPrim v
  | (k, v) :: rest => '"' :: k ++ '"' :: ':' :: stringifyPrim v ++ ',' :: stringifyMembers rest

/-- `JSON.stringify` of a flat object. -/
def stringifyObj (members : List (List Char × JsonPrim)) : List Char :=
  lbrace :: stringifyMembers members ++ [rbrace]

/-- Decimal digit recognizer. -/
def isDigitChar (c : Char) : Bool := 48 ≤ c.toNat && c.toNat ≤ 57

/-- Value of a digit character. -/
def digitVal (c : Char) : Nat := c.toNat - 48

/-- Consume a run of digits, accumulating their value. -/
def parseDigitsGo (acc : Nat) : List Char → Nat × List Char
  | c :: cs =>
    if isDigitChar c then parseDigitsGo (acc * 10 + digitVal c) cs else (acc, c :: cs)
  | [] => (acc, [])

/-- Whether the input begins with a decimal digit. -/
def digitStart (cs : List Char) : Bool :=
  match cs with
  | c :: _ => isDigitChar c
  | [] => false

/-- Parse a JSON integer: optional minus then at least one digit. -/
def parseNumber : List Char → Option (Int × List Char)
  | [] => none
  | c :: rest =>
    if c = '-' then
      if digitStart rest then
        let r := parseDigitsGo 0 rest
        some (-(r.1 : Int), r.2)
      else none
    else if isDigitChar c then
      let r := parseDigitsGo 0 (c :: rest)
      some ((r.1 : Int), r.2)
    else none

/-- Parse a string body up to the closing quote; escapes are outside the
modelled fragment and fail. -/
def parseStringBody : List Char → Option (List Char × List Char)
  | [] => none
  | c :: rest =>
    if c = '"' then some ([], rest)
    else if c = '\\' then none
    else
      match parseStringBody rest with
      | some r => some (c :: r.1, r.2)
      | none => none

/-- Parse a primitive JSON value. -/
def parsePrim : List Char → Option (JsonPrim × List Char)
  | [] => none
  | c :: rest =>
    if c = '"' then
      match parseStringBody rest with
      | some r => some (.jstr r.1, r.2)
      | none => none
    else if c = 't' then
      match rest with
      | 'r' :: 'u' :: 'e' :: rest2 => some (.jbool true, rest2)
      | _ => none
    else if c = 'f' then
      match rest with
      | 'a' :: 'l' :: 's' :: 'e' :: rest2 => some (.jbool false, rest2)
      | _ => none
    else if c = 'n' then
      match rest with
      | 'u' :: 'l' :: 'l' :: rest2 => some (.jnull, rest2)
      | _ => none
    else
      match parseNumber (c :: rest) with
      | some r => some (.jnum r.1, r.2)
      | none => none

/-- Parse the members of a flat object after its opening brace; the fuel
bounds the member count. -/
def parseMembers : Nat → List Char → Option (List (List Char × JsonPrim) × List Char)
  | 0, _ => none
  | _ + 1, [] => none
  | fuel + 1, c :: rest =>
      if c = '"' then
        match parseStringBody rest with
        | none => none
        | some k =>
          match k.2 with
          | [] => none
          | c2 :: afterColon =>
            if c2 = ':' then
              match parsePrim afterColon with
              | none => none
              | some v =>
                match v.2 with
                | [] => none
                | c3 :: afterSep =>
                  if c3 = ',' then
                    match parseMembers fuel afterSep with
                    | none => none
                    | some more => some ((k.1, v.1) :: more.1, more.2)
                  else if c3 = rbrace then some ([(k.1, v.1)], afterSep)
                  else none
            else none
      else none

/-- `JSON.parse` on the flat-object fragment: one object of primitive
members, full consumption required; `none` models a thrown SyntaxError. -/
def parseJsonObj : List Char → Option (List (List Char × JsonPrim))
  | c :: c2 :: rest2 =>
    if c = lbrace then
      if c2 = rbrace then (if rest2 = [] then some [] else none)
      else
        match parseMembers (rest2.length + 2) (c2 :: rest2) with
        | some (ms, []) => some ms
        | _ => none
    else none
  | _ => none

/-! ### The forged cursor -/

/-- The all-zero UUID used as the forged cursor's `id`. -/
def NULL_UUID : List Char := "00000000-0000-0000-0000-000000000000".data

/-- The far-future `exp` value (year 2100). -/
def FAR_FUTURE_EXP : Int := 4102444800000

/-- The object `forgeCursor` serializes. -/
def cursorPayload (timestampMs : Int) : List (List Char × JsonPrim) :=
  [(['i', 'd'], .jstr NULL_UUID),
   (['t', 's'], .jnum timestampMs),
   (['v'], .jnum 2),
   (['e', 'x', 'p'], .jnum FAR_FUTURE_EXP)]

/-- `forgeCursor(timestampMs)` from `cursor-forge.ts`. -/
def forgeCursor (timestampMs : Int) : List Char :=
  toBase64Url (stringifyObj (cursorPayload timestampMs))

/-- Object member access, as `parsed['ts']`: the first member with the
requested key. -/
def lookupMember : List (List Char × JsonPrim) → List Char → Option JsonPrim
  | [], _ => none
  | m :: ms, k => if m.1 = k then some m.2 else lookupMember ms k

/-- `decodeCursorTimestamp(cursor)` from `cursor-forge.ts`: base64url-decode,
JSON-parse, return `ts` when it is a finite number; `null` on any failure. -/
def decodeCursorTimestamp (cursor : List Char) : Option Int :=
  match fromBase64Url cursor with
  | none => none
  | some json =>
    match parseJsonObj json with
    | none => none
    | some ms =>
      match lookupMember ms ['t', 's'] with
      | some (.jnum n) => some n
      | _ => none

/-! ### Byte-level round trip -/

lemma b64Val_b64Char_fin : ∀ n : Fin 64, b64Val (b64Char n.1) = some n.1 := by decide

lemma b64Val_b64Char {n : Nat} (h : n < 64) : b64Val (b64Char n) = some n :=
  b64Val_b64Char_fin ⟨n, h⟩

lemma b64Char_urlsafe_fin :
    ∀ n : Fin 64, fromUrlSafeChar (toUrlSafeChar (b64Char n.1)) = b64Char n.1 := by decide

lemma b64Char_urlsafe {n : Nat} (h : n < 64) :
    fromUrlSafeChar (toUrlSafeChar (b64Char n)) = b64Char n :=
  b64Char_urlsafe_fin ⟨n, h⟩

lemma encoderChars_mem :
    ∀ bs : List Nat, (∀ b ∈ bs, b < 256) →
      ∀ c ∈ b64EncodeBytes bs, ∃ n : Nat, n < 64 ∧ c = b64Char n
  | [], _, c, hc => by simp [b64EncodeBytes] at hc
  | [b0], h, c, hc => by
    have hb0 : b0 < 256 := h b0 (by simp)
    simp only [b64EncodeBytes, List.mem_cons, List.not_mem_nil, or_false] at hc
    rcases hc with rfl | rfl
    · exact ⟨b0 / 4, by omega, rfl⟩
    · exact ⟨b0 % 4 * 16, by omega, rfl⟩
  | [b0, b1], h, c, hc => by
    have hb0 : b0 < 256 := h b0 (by simp)
    have hb1 : b1 < 256 := h b1 (by simp)
    simp only [b64EncodeBytes, List.mem_cons, List.not_mem_nil, or_false] at hc
    rcases hc with rfl | rfl | rfl
    · exact ⟨b0 / 4, by omega, rfl⟩
    · exact ⟨b0 % 4 * 16 + b1 / 16, by omega, rfl⟩
    · exact ⟨b1 % 16 * 4, by omega, rfl⟩
  | b0 :: b1 :: b2 :: rest, h, c, hc => by
    have hb0 : b0 < 256 := h b0 (by simp)
    have hb1 : b1 < 256 := h b1 (by simp)
    have hb2 : b2 < 256 := h b2 (by simp)
    simp only [b64EncodeBytes, List.mem_cons] at hc
    rcases hc with rfl | rfl | rfl | rfl | hc
    · exact ⟨b0 / 4, by omega, rfl⟩
    · exact ⟨b0 % 4 * 16 + b1 / 16, by omega, rfl⟩
    · exact ⟨b1 % 16 * 4 + b2 / 64, by omega, rfl⟩
    · exact ⟨b2 % 64, by omega, rfl⟩
    · exact encoderChars_mem rest (fun b hb => h b (by simp [hb])) c hc

lemma b64DecodeChars_encodeBytes :
    ∀ bs : List Nat, (∀ b ∈ bs, b < 256) →
      b64DecodeChars (b64EncodeBytes bs) = some bs
  | [], _ => rfl
  | [b0], h => by
    have hb0 : b0 < 256 := h b0 (by simp)
    simp only [b64EncodeBytes, b64DecodeChars,
      b64Val_b64Char (show b0 / 4 < 64 by omega),
      b64Val_b64Char (show b0 % 4 * 16 < 64 by omega)]
    simp only [Option.bind_eq_bind, Option.some_bind, Option.pure_def]
    refine congrArg some ?_
    simp only [List.cons.injEq]
    exact ⟨by omega, trivial⟩
  | [b0, b1], h => by
    have hb0 : b0 < 256 := h b0 (by simp)
    have hb1 : b1 < 256 := h b1 (by simp)
    simp only [b64EncodeBytes, b64DecodeChars,
      b64Val_b64Char (show b0 / 4 < 64 by omega),
      b64Val_b64Char (show b0 % 4 * 16 + b1 / 16 < 64 by omega),
      b64Val_b64Char (show b1 % 16 * 4 < 64 by omega)]
    simp only [Option.bind_eq_bind, Option.some_bind, Option.pure_def]
    refine congrArg some ?_
    simp only [List.cons.injEq]
    exact ⟨by omega, by omega, trivial⟩
  | b0 :: b1 :: b2 :: rest, h => by
    have hb0 : b0 < 256 := h b0 (by simp)
    have hb1 : b1 < 256 := h b1 (by simp)
    have hb2 : b2 < 256 := h b2 (by simp)
    have htail := b64DecodeChars_encodeBytes rest (fun b hb => h b (by simp [hb]))
    simp only [b64EncodeBytes, b64DecodeChars,
      b64Val_b64Char (show b0 / 4 < 64 by omega),
      b64Val_b64Char (show b0 % 4 * 16 + b1 / 16 < 64 by omega),
      b64Val_b64Char (show b1 % 16 * 4 + b2 / 64 < 64 by omega),
      b64Val_b64Char (show b2 % 64 < 64 by omega), htail]
    simp only [Option.bind_eq_bind, Option.some_bind, Option.pure_def]
    refine congrArg some ?_
    simp only [List.cons.injEq]
    exact ⟨by omega, by omega, by omega, trivial⟩

lemma map_urlsafe_encode (bs : List Nat) (h : ∀ b ∈ bs, b < 256) :
    ((b64EncodeBytes bs).map toUrlSafeChar).map fromUrlSafeChar = b64EncodeBytes bs := by
  rw [List.map_map]
  have hpt : ∀ c ∈ b64EncodeBytes bs, (fromUrlSafeChar ∘ toUrlSafeChar) c = id c := by
    intro c hc
    obtain ⟨n, hn, rfl⟩ := encoderChars_mem bs h c hc
    exact b64Char_urlsafe hn
  exact (List.map_congr_left hpt).trans (List.map_id _)

lemma bytesStr_strBytes (s : List Char) : bytesStr (strBytes s) = s := by
  unfold bytesStr strBytes
  rw [List.map_map]
  have hpt : ∀ c ∈ s, (Char.ofNat ∘ Char.toNat) c = id c := fun c _ => Char.ofNat_toNat c
  exact (List.map_congr_left hpt).trans (List.map_id _)

lemma fromBase64Url_toBase64Url (s : List Char) (h : ∀ c ∈ s, c.toNat < 256) :
    fromBase64Url (toBase64Url s) = some s := by
  have hbytes : ∀ b ∈ strBytes s, b < 256 := by
    intro b hb
    obtain ⟨c, hc, rfl⟩ := List.mem_map.mp hb
    exact h c hc
  unfold fromBase64Url toBase64Url
  rw [map_urlsafe_encode _ hbytes, b64DecodeChars_encodeBytes _ hbytes]
  simp [bytesStr_strBytes]

/-! ### Decimal printing against the number parser -/

lemma isDigitChar_digitChar_fin : ∀ n : Fin 10, isDigitChar (digitChar n.1) = true := by
  decide

lemma isDigitChar_digitChar {n : Nat} (h : n < 10) : isDigitChar (digitChar n) = true :=
  isDigitChar_digitChar_fin ⟨n, h⟩

lemma digitVal_digitChar_fin : ∀ n : Fin 10, digitVal (digitChar n.1) = n.1 := by decide

lemma digitVal_digitChar {n : Nat} (h : n < 10) : digitVal (digitChar n) = n :=
  digitVal_digitChar_fin ⟨n, h⟩

lemma natDecimalAux_congr : ∀ (n f1 f2 : Nat), n < f1 → n < f2 →
    natDecimalAux f1 n = natDecimalAux f2 n := by
  intro n
  induction n using Nat.strong_induction_on with
  | _ n ih =>
    intro f1 f2 h1 h2
    obtain ⟨g1, rfl⟩ : ∃ g, f1 = g + 1 := ⟨f1 - 1, by omega⟩
    obtain ⟨g2, rfl⟩ : ∃ g, f2 = g + 1 := ⟨f2 - 1, by omega⟩
    simp only [natDecimalAux]
    by_cases h : n < 10
    · simp [h]
    · simp only [if_neg h]
      rw [ih (n / 10) (by omega) g1 g2 (by omega) (by omega)]

lemma natDecimal_of_lt {n : Nat} (h : n < 10) : natDecimal n = [digitChar n] := by
  simp only [natDecimal, natDecimalAux, if_pos h]

lemma natDecimal_of_ge {n : Nat} (h : ¬ n < 10) :
    natDecimal n = natDecimal (n / 10) ++ [digitChar (n % 10)] := by
  show natDecimalAux (n + 1) n = natDecimalAux (n / 10 + 1) (n / 10) ++ [digitChar (n % 10)]
  have step : natDecimalAux (n + 1) n
      = if n < 10 then [digitChar n]
        else natDecimalAux n (n / 10) ++ [digitChar (n % 10)] := rfl
  rw [step, if_neg h, natDecimalAux_congr (n / 10) n (n / 10 + 1) (by omega) (by omega)]

lemma natDecimal_ne_nil (n : Nat) : natDecimal n ≠ [] := by
  by_cases h : n < 10
  · rw [natDecimal_of_lt h]; simp
  · rw [natDecimal_of_ge h]; simp

lemma natDecimal_all_digits (n : Nat) : ∀ c ∈ natDecimal n, isDigitChar c = true := by
  induction n using Nat.strong_induction_on with
  | _ n ih =>
    by_cases h : n < 10
    · rw [natDecimal_of_lt h]
      intro c hc
      rw [List.mem_singleton.mp hc]
      exact isDigitChar_digitChar h
    · rw [natDecimal_of_ge h]
      intro c hc
      rcases List.mem_append.mp hc with hc | hc
      · exact ih (n / 10) (by omega) c hc
      · rw [List.mem_singleton.mp hc]
        exact isDigitChar_digitChar (by omega)

lemma parseDigitsGo_not_digitStart (acc : Nat) (rest : List Char)
    (h : digitStart rest = false) : parseDigitsGo acc rest = (acc, rest) := by
  cases rest with
  | nil => rfl
  | cons c cs =>
    simp only [digitStart] at h
    simp [parseDigitsGo, h]

lemma parseDigitsGo_natDecimal (n : Nat) :
    ∀ acc rest, parseDigitsGo acc (natDecimal n ++ rest) =
      parseDigitsGo (acc * 10 ^ (natDecimal n).length + n) rest := by
  induction n using Nat.strong_induction_on with
  | _ n ih =>
    intro acc rest
    by_cases h : n < 10
    · rw [natDecimal_of_lt h]
      simp only [List.cons_append, List.nil_append, parseDigitsGo,
        isDigitChar_digitChar h, if_pos, digitVal_digitChar h, List.length_singleton]
      norm_num
    · rw [natDecimal_of_ge h, List.append_assoc, List.singleton_append,
        ih (n / 10) (by omega) acc (digitChar (n % 10) :: rest)]
      have hmod : n % 10 < 10 := by omega
      simp only [parseDigitsGo, isDigitChar_digitChar hmod, if_pos, digitVal_digitChar hmod]
      simp only [List.length_append, List.length_singleton]
      congr 1
      rw [pow_succ, ← mul_assoc]
      generalize acc * 10 ^ (natDecimal (n / 10)).length = q
      omega

lemma natDecimal_head_digit (n : Nat) {c : Char} {cs : List Char}
    (h : natDecimal n = c :: cs) : isDigitChar c = true :=
  natDecimal_all_digits n c (h ▸ List.mem_cons_self c cs)

lemma isDigitChar_ne (c : Char) (h : isDigitChar c = true) :
    c ≠ '-' ∧ c ≠ '"' ∧ c ≠ 't' ∧ c ≠ 'f' ∧ c ≠ 'n' := by
  refine ⟨?_, ?_, ?_, ?_, ?_⟩ <;> (intro he; rw [he] at h; exact absurd h (by decide))

lemma parseNumber_natDecimal_nonneg (m : Nat) (rest : List Char)
    (hrest : digitStart rest = false) :
    parseNumber (natDecimal m ++ rest) = some ((m : Int), rest) := by
  obtain ⟨c, cs, hcs⟩ : ∃ c cs, natDecimal m = c :: cs := by
    cases hh : natDecimal m with
    | nil => exact absurd hh (natDecimal_ne_nil m)
    | cons c cs => exact ⟨c, cs, rfl⟩
  have hdig : isDigitChar c = true := natDecimal_head_digit m hcs
  have hne := isDigitChar_ne c hdig
  rw [hcs, List.cons_append]
  have hgo : parseDigitsGo 0 (c :: (cs ++ rest)) = (m, rest) := by
    rw [← List.cons_append, ← hcs, parseDigitsGo_natDecimal,
      parseDigitsGo_not_digitStart _ _ hrest]
    norm_num
  simp [parseNumber, hne.1, hdig, hgo]

lemma parseNumber_intDecimal (n : Int) (rest : List Char)
    (hrest : digitStart rest = false) :
    parseNumber (intDecimal n ++ rest) = some (n, rest) := by
  by_cases hn : n < 0
  · rw [intDecimal, if_pos hn]
    obtain ⟨c, cs, hcs⟩ : ∃ c cs, natDecimal n.natAbs = c :: cs := by
      cases hh : natDecimal n.natAbs with
      | nil => exact absurd hh (natDecimal_ne_nil _)
      | cons c cs => exact ⟨c, cs, rfl⟩
    have hdig : isDigitChar c = true := natDecimal_head_digit _ hcs
    rw [List.cons_append, hcs, List.cons_append]
    have hds : digitStart (c :: (cs ++ rest)) = true := by simp [digitStart, hdig]
    have hgo : parseDigitsGo 0 (c :: (cs ++ rest)) = (n.natAbs, rest) := by
      rw [← List.cons_append, ← hcs, parseDigitsGo_natDecimal,
        parseDigitsGo_not_digitStart _ _ hrest]
      norm_num
    have heval : parseNumber ('-' :: c :: (cs ++ rest)) =
        some (-((n.natAbs : Nat) : Int), rest) := by
      simp [parseNumber, hds, hgo]
    rw [heval]
    have habs : -((n.natAbs : Nat) : Int) = n := by omega
    rw [habs]
  · rw [intDecimal, if_neg hn, parseNumber_natDecimal_nonneg _ _ hrest]
    have htn : ((n.toNat : Nat) : Int) = n := by omega
    rw [htn]

/-! ### Strings, values and objects against their parsers -/

/-- Keys and string values the stringifier may emit without escaping. -/
def GoodStr (s : List Char) : Prop := ∀ c ∈ s, c ≠ '"' ∧ c ≠ '\\'

instance (s : List Char) : Decidable (GoodStr s) := by
  unfold GoodStr
  infer_instance

/-- Values in the escape-free fragment. -/
def GoodVal : JsonPrim → Prop
  | .jstr s => GoodStr s
  | _ => True

/-- A member with an escape-free key and value. -/
def GoodMember (m : List Char × JsonPrim) : Prop :=
  GoodStr m.1 ∧ GoodVal m.2

lemma parseStringBody_append (s rest : List Char) (h : GoodStr s) :
    parseStringBody (s ++ '"' :: rest) = some (s, rest) := by
  induction s with
  | nil => simp [parseStringBody]
  | cons c cs ih =>
    have hc := h c (List.mem_cons_self c cs)
    have hcs : GoodStr cs := fun x hx => h x (List.mem_cons_of_mem c hx)
    simp only [List.cons_append, parseStringBody, if_neg hc.1, if_neg hc.2]
    rw [show cs.append ('"' :: rest) = cs ++ '"' :: rest from rfl, ih hcs]

lemma intDecimal_head (n : Int) :
    ∃ c cs, intDecimal n = c :: cs ∧ (c = '-' ∨ isDigitChar c = true) := by
  by_cases hn : n < 0
  · refine ⟨'-', natDecimal n.natAbs, ?_, Or.inl rfl⟩
    rw [intDecimal, if_pos hn]
  · obtain ⟨c, cs, hcs⟩ : ∃ c cs, natDecimal n.toNat = c :: cs := by
      cases hh : natDecimal n.toNat with
      | nil => exact absurd hh (natDecimal_ne_nil _)
      | cons c cs => exact ⟨c, cs, rfl⟩
    refine ⟨c, cs, ?_, Or.inr (natDecimal_head_digit _ hcs)⟩
    rw [intDecimal, if_neg hn, hcs]

lemma parsePrim_stringify (v : JsonPrim) (hv : GoodVal v) (rest : List Char)
    (hrest : digitStart rest = false) :
    parsePrim (stringifyPrim v ++ rest) = some (v, rest) := by
  cases v with
  | jstr s =>
    have heq : stringifyPrim (.jstr s) ++ rest = '"' :: (s ++ '"' :: rest) := by
      simp [stringifyPrim]
    rw [heq]
    simp [parsePrim, parseStringBody_append s rest hv]
  | jnum n =>
    obtain ⟨c, cs, hcs, hc⟩ := intDecimal_head n
    have hne : c ≠ '"' ∧ c ≠ 't' ∧ c ≠ 'f' ∧ c ≠ 'n' := by
      rcases hc with rfl | hdig
      · exact ⟨by decide, by decide, by decide, by decide⟩
      · have h5 := isDigitChar_ne c hdig
        exact ⟨h5.2.1, h5.2.2.1, h5.2.2.2.1, h5.2.2.2.2⟩
    have heq : stringifyPrim (.jnum n) ++ rest = c :: (cs ++ rest) := by
      simp [stringifyPrim, hcs]
    have hnum : parseNumber (c :: (cs ++ rest)) = some (n, rest) := by
      rw [← List.cons_append, ← hcs]
      exact parseNumber_intDecimal n rest hrest
    rw [heq]
    simp [parsePrim, hne.1, hne.2.1, hne.2.2.1, hne.2.2.2, hnum]
  | jbool b => cases b <;> rfl
  | jnull => rfl

lemma parseMembers_stringify (ms : List (List Char × JsonPrim)) :
    ∀ fuel rest, ms ≠ [] → (∀ m ∈ ms, GoodMember m) → ms.length ≤ fuel →
      parseMembers fuel (stringifyMembers ms ++ rbrace :: rest) = some (ms, rest) := by
  induction ms with
  | nil => intro fuel rest h; exact absurd rfl h
  | cons m ms' ih =>
    intro fuel rest _ hgood hfuel
    obtain ⟨fuel', rfl⟩ : ∃ f, fuel = f + 1 := by
      have hpos : 1 ≤ fuel := le_trans (by simp only [List.length_cons]; omega) hfuel
      exact ⟨fuel - 1, by omega⟩
    obtain ⟨k, v⟩ := m
    have hk : GoodStr k := (hgood (k, v) (by simp)).1
    have hv : GoodVal v := (hgood (k, v) (by simp)).2
    cases ms' with
    | nil =>
      have hlist : stringifyMembers [(k, v)] ++ rbrace :: rest
          = '"' :: (k ++ '"' :: (':' :: (stringifyPrim v ++ rbrace :: rest))) := by
        simp [stringifyMembers]
      have hsb := parseStringBody_append k (':' :: (stringifyPrim v ++ rbrace :: rest)) hk
      have hp : parsePrim (stringifyPrim v ++ rbrace :: rest) = some (v, rbrace :: rest) :=
        parsePrim_stringify v hv _ rfl
      have hbc : rbrace ≠ ',' := by decide
      rw [hlist]
      simp [parseMembers, hsb, hp, hbc]
    | cons m2 ms'' =>
      have hlist : stringifyMembers ((k, v) :: m2 :: ms'') ++ rbrace :: rest
          = '"' :: (k ++ '"' :: (':' :: (stringifyPrim v ++
              ',' :: (stringifyMembers (m2 :: ms'') ++ rbrace :: rest)))) := by
        simp [stringifyMembers]
      have hsb := parseStringBody_append k
        (':' :: (stringifyPrim v ++ ',' :: (stringifyMembers (m2 :: ms'') ++ rbrace :: rest))) hk
      have hp : parsePrim (stringifyPrim v ++
            ',' :: (stringifyMembers (m2 :: ms'') ++ rbrace :: rest))
          = some (v, ',' :: (stringifyMembers (m2 :: ms'') ++ rbrace :: rest)) :=
        parsePrim_stringify v hv _ rfl
      have hrec := ih fuel' rest (by simp)
        (fun x hx => hgood x (List.mem_cons_of_mem _ hx))
        (by simp only [List.length_cons] at hfuel ⊢; omega)
      rw [hlist]
      simp [parseMembers, hsb, hp, hrec]

lemma stringifyMembers_head (m : List Char × JsonPrim)
    (tl : List (List Char × JsonPrim)) :
    ∃ t2, stringifyMembers (m :: tl) = '"' :: t2 := by
  obtain ⟨k, v⟩ := m
  cases tl with
  | nil => exact ⟨_, rfl⟩
  | cons m2 ms2 => exact ⟨_, rfl⟩

lemma stringifyMembers_length_ge (ms : List (List Char × JsonPrim)) :
    ms.length ≤ (stringifyMembers ms).length := by
  induction ms with
  | nil => simp [stringifyMembers]
  | cons m ms' ih =>
    obtain ⟨k, v⟩ := m
    cases ms' with
    | nil => simp [stringifyMembers]
    | cons m2 ms'' =>
      simp only [stringifyMembers, List.length_cons, List.length_append] at ih ⊢
      omega

lemma parseJsonObj_stringify (ms : List (List Char × JsonPrim))
    (hne : ms ≠ []) (hgood : ∀ m ∈ ms, GoodMember m) :
    parseJsonObj (stringifyObj ms) = some ms := by
  cases ms with
  | nil => exact absurd rfl hne
  | cons m tl =>
    obtain ⟨t2, ht2⟩ := stringifyMembers_head m tl
    have hobj : stringifyObj (m :: tl) = lbrace :: '"' :: (t2 ++ [rbrace]) := by
      simp [stringifyObj, ht2]
    have hq : ('"' : Char) ≠ rbrace := by decide
    have hfuel : (m :: tl).length ≤ (t2 ++ [rbrace]).length + 2 := by
      have hlen := stringifyMembers_length_ge (m :: tl)
      rw [ht2] at hlen
      simp only [List.length_cons, List.length_append, List.length_singleton] at hlen ⊢
      omega
    have hmem : parseMembers ((t2 ++ [rbrace]).length + 2) ('"' :: (t2 ++ [rbrace]))
        = some (m :: tl, []) := by
      have hre : '"' :: (t2 ++ [rbrace]) = stringifyMembers (m :: tl) ++ rbrace :: [] := by
        rw [ht2]
        simp
      rw [hre]
      exact parseMembers_stringify (m :: tl) ((t2 ++ [rbrace]).length + 2) [] hne hgood hfuel
    rw [hobj]
    have hred : parseJsonObj (lbrace :: '"' :: (t2 ++ [rbrace]))
        = (match parseMembers ((t2 ++ [rbrace]).length + 2) ('"' :: (t2 ++ [rbrace])) with
           | some (ms, []) => some ms
           | _ => none) := by
      show (if lbrace = lbrace then
              if ('"' : Char) = rbrace then
                (if (t2 ++ [rbrace]) = ([] : List Char) then some [] else none)
              else
                match parseMembers ((t2 ++ [rbrace]).length + 2) ('"' :: (t2 ++ [rbrace])) with
                | some (ms, []) => some ms
                | _ => none
            else none)
          = (match parseMembers ((t2 ++ [rbrace]).length + 2) ('"' :: (t2 ++ [rbrace])) with
             | some (ms, []) => some ms
             | _ => none)
      rw [if_pos rfl, if_neg hq]
    rw [hred, hmem]

/-! ### ASCII bound and the round trip -/

lemma isDigitChar_lt {c : Char} (h : isDigitChar c = true) : c.toNat < 256 := by
  simp only [isDigitChar, Bool.and_eq_true, decide_eq_true_eq] at h
  omega

lemma natDecimal_lt (n : Nat) : ∀ c ∈ natDecimal n, c.toNat < 256 :=
  fun c hc => isDigitChar_lt (natDecimal_all_digits n c hc)

lemma intDecimal_lt (n : Int) : ∀ c ∈ intDecimal n, c.toNat < 256 := by
  intro c hc
  unfold intDecimal at hc
  by_cases hn : n < 0
  · rw [if_pos hn] at hc
    rcases List.mem_cons.mp hc with rfl | hc
    · decide
    · exact natDecimal_lt _ c hc
  · rw [if_neg hn] at hc
    exact natDecimal_lt _ c hc

/-- The serialized payload up to (not including) the rendered timestamp. -/
def cursorPrefix : List Char :=
  lbrace :: (['"', 'i', 'd', '"', ':', '"'] ++ NULL_UUID
    ++ ['"', ',', '"', 't', 's', '"', ':'])

/-- The serialized payload after the rendered timestamp. -/
def cursorSuffix : List Char :=
  [',', '"', 'v', '"', ':'] ++ (intDecimal 2
    ++ ([',', '"', 'e', 'x', 'p', '"', ':'] ++ (intDecimal FAR_FUTURE_EXP ++ [rbrace])))

lemma stringifyObj_cursorPayload (t : Int) :
    stringifyObj (cursorPayload t) = cursorPrefix ++ (intDecimal t ++ cursorSuffix) := by
  simp [stringifyObj, cursorPayload, stringifyMembers, stringifyPrim,
    cursorPrefix, cursorSuffix]

lemma cursorChars_lt (t : Int) :
    ∀ c ∈ stringifyObj (cursorPayload t), c.toNat < 256 := by
  intro c hc
  rw [stringifyObj_cursorPayload] at hc
  have hpre : ∀ x ∈ cursorPrefix, x.toNat < 256 := by decide
  rcases List.mem_append.mp hc with hc | hc
  · exact hpre c hc
  rcases List.mem_append.mp hc with hc | hc
  · exact intDecimal_lt t c hc
  unfold cursorSuffix at hc
  rcases List.mem_append.mp hc with hc | hc
  · exact (by decide : ∀ x ∈ [',', '"', 'v', '"', ':'], x.toNat < 256) c hc
  rcases List.mem_append.mp hc with hc | hc
  · exact intDecimal_lt 2 c hc
  rcases List.mem_append.mp hc with hc | hc
  · exact (by decide : ∀ x ∈ [',', '"', 'e', 'x', 'p', '"', ':'], x.toNat < 256) c hc
  rcases List.mem_append.mp hc with hc | hc
  · exact intDecimal_lt FAR_FUTURE_EXP c hc
  · exact (by decide : ∀ x ∈ [rbrace], x.toNat < 256) c hc

lemma cursorPayload_good (t : Int) : ∀ m ∈ cursorPayload t, GoodMember m := by
  intro m hm
  simp only [cursorPayload, List.mem_cons, List.not_mem_nil, or_false] at hm
  rcases hm with rfl | rfl | rfl | rfl
  · exact ⟨(by decide : GoodStr ['i', 'd']), (by decide : GoodStr NULL_UUID)⟩
  · exact ⟨(by decide : GoodStr ['t', 's']), trivial⟩
  · exact ⟨(by decide : GoodStr ['v']), trivial⟩
  · exact ⟨(by decide : GoodStr ['e', 'x', 'p']), trivial⟩

/-- The codec round trip: decoding a forged cursor recovers the forged
timestamp. Shared by the cursor-claim and the worker-recovery claims. -/
lemma decode_forge (t : Int) : decodeCursorTimestamp (forgeCursor t) = some t := by
  have h1 : fromBase64Url (forgeCursor t) = some (stringifyObj (cursorPayload t)) :=
    fromBase64Url_toBase64Url _ (cursorChars_lt t)
  have h2 : parseJsonObj (stringifyObj (cursorPayload t)) = some (cursorPayload t) :=
    parseJsonObj_stringify _ (by simp [cursorPayload]) (cursorPayload_good t)
  have h3 : lookupMember (cursorPayload t) ['t', 's'] = some (.jnum t) := by
    simp [cursorPayload, lookupMember]
  simp only [decodeCursorTimestamp, h1, h2, h3]

/-- C2: for every integer timestamp `t`, decoding the forged cursor yields
back `t`: `decodeCursorTimestamp (forgeCursor t) = some t`, where
`forgeCursor` serializes `{id: NULL_UUID, ts: t, v: 2, exp: 4102444800000}`
and base64url-encodes it with padding stripped. -/
theorem decodeCursorTimestamp_forgeCursor (t : Int) :
    decodeCursorTimestamp (forgeCursor t) = some t :=
  decode_forge t

/-! ## Timestamp normalization (`mappers.ts`)

`normalizeTimestampMs` accepts a JS value; finite numbers and digit-only
strings follow the seconds/milliseconds heuristic (`< 1e12` means seconds),
other nonempty strings go through `Date.parse`, and everything else throws.
JS numbers are embedded as `Rat` (exact for every value in range);
`Date.parse` is modelled on its deterministic ISO-8601 UTC forms
(`YYYY-MM-DD`, `YYYY-MM-DDTHH:MM:SSZ`, `YYYY-MM-DDTHH:MM:SS.sssZ`) via the
standard civil-from-days calendar computation. -/

/-- A JavaScript value as `normalizeTimestampMs` can receive it: a finite
number, a non-finite number (`NaN`/infinities), a string, `null` or
`undefined`. -/
inductive JsValue where
  | num (q : ℚ)
  | nan
  | str (s : List Char)
  | null
  | undef
deriving Repr, DecidableEq

/-- Digit-only test, the `/^\d+$/` check. -/
def allDigitChars (s : List Char) : Bool := s.all isDigitChar

/-- `Number(value)` on a digit-only string. -/
def digitsToNat (s : List Char) : Nat :=
  s.foldl (fun a c => a * 10 + digitVal c) 0

/-- Two decimal digits. -/
def parse2Digits : List Char → Option (Nat × List Char)
  | c1 :: c2 :: rest =>
    if isDigitChar c1 && isDigitChar c2 then
      some (digitVal c1 * 10 + digitVal c2, rest)
    else none
  | _ => none

/-- Four decimal digits. -/
def parse4Digits : List Char → Option (Nat × List Char)
  | c1 :: c2 :: c3 :: c4 :: rest =>
    if isDigitChar c1 && isDigitChar c2 && isDigitChar c3 && isDigitChar c4 then
      some (digitVal c1 * 1000 + digitVal c2 * 100 + digitVal c3 * 10 + digitVal c4, rest)
    else none
  | _ => none

def isLeapYear (y : Nat) : Bool :=
  (y % 4 == 0 && !(y % 100 == 0)) || y % 400 == 0

def daysInMonth (y m : Nat) : Nat :=
  if m = 2 then (if isLeapYear y then 29 else 28)
  else if m = 4 ∨ m = 6 ∨ m = 9 ∨ m = 11 then 30
  else 31

/-- Days between 1970-01-01 and the given civil date (proleptic Gregorian),
the standard civil-from-days computation. -/
def daysFromCivil (y m d : Nat) : Int :=
  let yAdj : Int := (y : Int) - (if m ≤ 2 then 1 else 0)
  let era : Int := yAdj.fdiv 400
  let yoe : Nat := (yAdj - era * 400).toNat
  let mp : Nat := if 2 < m then m - 3 else m + 9
  let doy : Nat := (153 * mp + 2) / 5 + d - 1
  let doe : Nat := yoe * 365 + yoe / 4 - yoe / 100 + doy
  era * 146097 + (doe : Int) - 719468

/-- The time-of-day part after the `T`: `HH:MM:SS` optionally followed by
`.sss`, terminated by `Z` and end of input. -/
def parseTimeOfDay (s : List Char) : Option Nat := do
  let (hh, r1) ← parse2Digits s
  match r1 with
  | ':' :: r2 => do
    let (mm, r3) ← parse2Digits r2
    match r3 with
    | ':' :: r4 => do
      let (ss, r5) ← parse2Digits r4
      if hh ≤ 23 ∧ mm ≤ 59 ∧ ss ≤ 59 then
        match r5 with
        | ['Z'] => pure (hh * 3600000 + mm * 60000 + ss * 1000)
        | '.' :: m1 :: m2 :: m3 :: ['Z'] =>
          if isDigitChar m1 && isDigitChar m2 && isDigitChar m3 then
            pure (hh * 3600000 + mm * 60000 + ss * 1000
              + digitVal m1 * 100 + digitVal m2 * 10 + digitVal m3)
          else none
        | _ => none
      else none
    | _ => none
  | _ => none

/-- `Date.parse` restricted to its deterministic ISO-8601 UTC forms. -/
def dateParse (s : List Char) : Option Int := do
  let (y, r1) ← parse4Digits s
  match r1 with
  | '-' :: r2 => do
    let (mo, r3) ← parse2Digits r2
    match r3 with
    | '-' :: r4 => do
      let (d, r5) ← parse2Digits r4
      if 1 ≤ mo ∧ mo ≤ 12 ∧ 1 ≤ d ∧ d ≤ daysInMonth y mo then
        match r5 with
        | [] => pure (daysFromCivil y mo d * 86400000)
        | 'T' :: r6 => do
          let tod ← parseTimeOfDay r6
          pure (daysFromCivil y mo d * 86400000 + tod)
        | _ => none
      else none
    | _ => none
  | _ => none

/-- `normalizeTimestampMs(value)` from `mappers.ts`; `none` models the
thrown `Invalid timestamp` error. -/
def normalizeTimestampMs : JsValue → Option Int
  | .num q =>
    some (if ⌊q⌋ < 1000000000000 then ⌊q⌋ * 1000 else ⌊q⌋)
  | .str s =>
    if s.isEmpty then none
    else if allDigitChars s then
      some (if (digitsToNat s : Int) < 1000000000000
            then (digitsToNat s : Int) * 1000 else (digitsToNat s : Int))
    else dateParse s
  | _ => none

/-! ### C7 lemmas -/

lemma allDigitChars_natDecimal (n : Nat) : allDigitChars (natDecimal n) = true := by
  unfold allDigitChars
  rw [List.all_eq_true]
  exact natDecimal_all_digits n

lemma digitsFoldl_natDecimal (n : Nat) :
    ∀ acc, (natDecimal n).foldl (fun a c => a * 10 + digitVal c) acc
      = acc * 10 ^ (natDecimal n).length + n := by
  induction n using Nat.strong_induction_on with
  | _ n ih =>
    intro acc
    by_cases h : n < 10
    · rw [natDecimal_of_lt h]
      simp only [List.foldl_cons, List.foldl_nil, digitVal_digitChar h,
        List.length_singleton]
      norm_num
    · rw [natDecimal_of_ge h, List.foldl_append, ih (n / 10) (by omega) acc]
      have hmod : n % 10 < 10 := by omega
      simp only [List.foldl_cons, List.foldl_nil, digitVal_digitChar hmod,
        List.length_append, List.length_singleton]
      rw [pow_succ, ← mul_assoc]
      generalize acc * 10 ^ (natDecimal (n / 10)).length = q
      omega

lemma digitsToNat_natDecimal (n : Nat) : digitsToNat (natDecimal n) = n := by
  unfold digitsToNat
  rw [digitsFoldl_natDecimal n 0]
  norm_num

/-- C7 counterexample: the instant 5·10^11 ms after the epoch is represented
by seconds value 5·10^8 and milliseconds value 5·10^11, yet
`normalizeTimestampMs` maps the former to 5·10^11 and the latter to 5·10^14
— two different values — because every numeric input below 10^12 is treated
as seconds. -/
theorem normalizeTimestampMs_ms_representation_shifted :
    normalizeTimestampMs (.num 500000000) = some 500000000000 ∧
      normalizeTimestampMs (.num 500000000000) = some 500000000000000 ∧
      (500000000000 : Int) ≠ 500000000000000 := by
  refine ⟨?_, ?_, by norm_num⟩ <;> norm_num [normalizeTimestampMs]

/-- C7 amended: for every whole-second instant whose millisecond value `m`
satisfies `10^12 ≤ m < 10^15`, the seconds integer, the milliseconds
integer, the digit strings of both, and any ISO-8601 string that
`Date.parse` reads as `m` are all mapped by `normalizeTimestampMs` to `m`.
(Below 10^12 ms the milliseconds representation is re-scaled, as the
counterexample shows.) -/
theorem normalizeTimestampMs_representations (m : Nat) (w : List Char)
    (h1 : 1000000000000 ≤ m) (h2 : m < 1000000000000000) (h3 : m % 1000 = 0)
    (hw : allDigitChars w = false) (hp : dateParse w = some (m : Int)) :
    normalizeTimestampMs (.num ((m / 1000 : Nat) : ℚ)) = some (m : Int)
    ∧ normalizeTimestampMs (.num ((m : Nat) : ℚ)) = some (m : Int)
    ∧ normalizeTimestampMs (.str (natDecimal (m / 1000))) = some (m : Int)
    ∧ normalizeTimestampMs (.str (natDecimal m)) = some (m : Int)
    ∧ normalizeTimestampMs (.str w) = some (m : Int) := by
  have hfloor1 : ⌊((m / 1000 : Nat) : ℚ)⌋ = ((m / 1000 : Nat) : Int) := Int.floor_natCast _
  have hfloor2 : ⌊((m : Nat) : ℚ)⌋ = (m : Int) := Int.floor_natCast _
  have hslt : ((m / 1000 : Nat) : Int) < 1000000000000 := by omega
  have hmge : ¬ ((m : Int) < 1000000000000) := by omega
  refine ⟨?_, ?_, ?_, ?_, ?_⟩
  · simp only [normalizeTimestampMs, hfloor1, if_pos hslt]
    congr 1
    omega
  · simp only [normalizeTimestampMs, hfloor2, if_neg hmge]
  · have hne : (natDecimal (m / 1000)).isEmpty = false := by
      cases hh : natDecimal (m / 1000) with
      | nil => exact absurd hh (natDecimal_ne_nil _)
      | cons c cs => rfl
    simp only [normalizeTimestampMs, hne, Bool.false_eq_true, if_false,
      allDigitChars_natDecimal, if_true, digitsToNat_natDecimal]
    rw [if_pos hslt]
    congr 1
    omega
  · have hne : (natDecimal m).isEmpty = false := by
      cases hh : natDecimal m with
      | nil => exact absurd hh (natDecimal_ne_nil _)
      | cons c cs => rfl
    simp only [normalizeTimestampMs, hne, Bool.false_eq_true, if_false,
      allDigitChars_natDecimal, if_true, digitsToNat_natDecimal]
    rw [if_neg hmge]
  · have hwne : w.isEmpty = false := by
      cases w with
      | nil => exact absurd hw (by decide)
      | cons c cs => rfl
    simp only [normalizeTimestampMs, hwne, Bool.false_eq_true, if_false, hw, hp]

/-- Witness for the amended C7 at the instant 2026-01-10T00:00:00Z, whose
millisecond value is 1768003200000. -/
theorem normalizeTimestampMs_representations_witness :
    ((1000000000000 ≤ 1768003200000)
      ∧ (1768003200000 < 1000000000000000)
      ∧ (1768003200000 % 1000 = 0)
      ∧ allDigitChars "2026-01-10T00:00:00.000Z".data = false
      ∧ dateParse "2026-01-10T00:00:00.000Z".data = some ((1768003200000 : Nat) : Int))
    ∧ (normalizeTimestampMs (.num ((1768003200000 / 1000 : Nat) : ℚ))
          = some ((1768003200000 : Nat) : Int)
      ∧ normalizeTimestampMs (.num ((1768003200000 : Nat) : ℚ))
          = some ((1768003200000 : Nat) : Int)
      ∧ normalizeTimestampMs (.str (natDecimal (1768003200000 / 1000)))
          = some ((1768003200000 : Nat) : Int)
      ∧ normalizeTimestampMs (.str (natDecimal 1768003200000))
          = some ((1768003200000 : Nat) : Int)
      ∧ normalizeTimestampMs (.str "2026-01-10T00:00:00.000Z".data)
          = some ((1768003200000 : Nat) : Int)) :=
  ⟨⟨by norm_num, by norm_num, by norm_num, by decide, by decide⟩,
    normalizeTimestampMs_representations 1768003200000 "2026-01-10T00:00:00.000Z".data
      (by norm_num) (by norm_num) (by norm_num) (by decide) (by decide)⟩

/-! ## The worker fetch loop (`worker.ts`)

The loop is embedded against a scripted source: a list of fetch outcomes
consumed one per fetch call. Each iteration awaits the pending fetch, and
on success filters the page to the worker's partition, updates the
checkpoint fields, decides whether to schedule the next fetch (pipelining
does not change the data flow for a deterministic source) and enqueues the
filtered batch. -/

/-- A raw server event after page normalization: `id` and `timestamp` of
arbitrary JS type plus the opaque remainder (carried as the serialization
the mapper stores). -/
structure RawEvent where
  id : JsValue
  timestamp : JsValue
  payload : List Char
deriving Repr, DecidableEq

/-- `toIngestionEvent` from `mappers.ts`: `null` unless `id` is a truthy
string (the empty string is falsy) and the timestamp normalizes. -/
def toIngestionEvent (raw : RawEvent) : Option IngestionEvent :=
  match raw.id with
  | .str s =>
    if s = [] then none
    else
      match normalizeTimestampMs raw.timestamp with
      | some ts => some { eventId := s, timestampMs := ts, payload := raw.payload }
      | none => none
  | _ => none

/-- `toIngestionEvents` from `mappers.ts`: the valid events, in page order. -/
def toIngestionEvents (rawEvents : List RawEvent) : List IngestionEvent :=
  rawEvents.filterMap toIngestionEvent

/-- A normalized page (`types.ts`). -/
structure NormalizedPage where
  events : List RawEvent
  hasMore : Bool
  nextCursor : Option (List Char)
  total : Option Int
deriving Repr, DecidableEq

/-- A fetch outcome: `HttpError` with its status, any other thrown error,
or a page. -/
inductive FetchError where
  | http (status : Nat)
  | other
deriving Repr, DecidableEq

/-- The worker's loop-local state, plus the write tasks it has enqueued and
the count of loop iterations entered (used to index the stop predicate). -/
structure LoopState where
  cursor : Option (List Char)
  lastTs : Option Int
  fetchedCount : Nat
  insertedCount : Nat
  enqueued : List WriteTask
  iter : Nat
deriving Repr, DecidableEq

/-- The worker's context: its partition bounds, id, the stop predicate
(indexed by loop iteration) and the write queue's insert-count response. -/
structure WorkerCtx where
  chunkStartTs : Int
  chunkEndTs : Int
  workerId : Nat
  shouldStop : Nat → Bool
  dbInsert : List IngestionEvent → Nat

/-- The per-page boundary filter of `runWorker` (`worker.ts` lines 80-89):
walk the valid events in page order; the first event below `chunkStartTs`
sets `done` and breaks out (later events in the page are dropped); events
at or above `chunkEndTs` are skipped; the rest are kept. -/
def filterLoop (chunkStartTs chunkEndTs : Int) :
    List IngestionEvent → List IngestionEvent × Bool
  | [] => ([], false)
  | e :: rest =>
    if e.timestampMs < chunkStartTs then ([], true)
    else if chunkEndTs ≤ e.timestampMs then filterLoop chunkStartTs chunkEndTs rest
    else
      let r := filterLoop chunkStartTs chunkEndTs rest
      (e :: r.1, r.2)

/-- `Math.min(...allEvents.map(e => e.timestampMs))` over a nonempty list. -/
def minTs : List IngestionEvent → Int
  | [] => 0
  | e :: rest => rest.foldl (fun a x => min a x.timestampMs) e.timestampMs

/-- JS truthiness of the cursor: non-null and nonempty. -/
def cursorTruthy : Option (List Char) → Bool
  | none => false
  | some c => !c.isEmpty

/-- One successful-page iteration of the worker loop (`worker.ts` lines
75-128): filter, bump `fetchedCount` by the raw page size, take the page's
`nextCursor`, set `lastTs` to the minimum timestamp over all valid events
when there are any, enqueue the filtered batch with the checkpoint
snapshot, and report whether the loop schedules another fetch
(`hasMore && !done && cursor` truthy). -/
def pageStep (ctx : WorkerCtx) (st : LoopState) (page : NormalizedPage) :
    LoopState × Bool :=
  let valids := toIngestionEvents page.events
  let fd := filterLoop ctx.chunkStartTs ctx.chunkEndTs valids
  let fetchedCount := st.fetchedCount + page.events.length
  let cursor := page.nextCursor
  let lastTs := if valids.isEmpty then st.lastTs else some (minTs valids)
  let task : WriteTask :=
    { events := fd.1
      checkpoint := { workerId := ctx.workerId, cursor := cursor, lastTs := lastTs
                      fetchedCount := fetchedCount, insertedCount := st.insertedCount
                      status := .running } }
  let enqueued := if fd.1.isEmpty then st.enqueued else st.enqueued ++ [task]
  let insertedCount :=
    if fd.1.isEmpty then st.insertedCount else st.insertedCount + ctx.dbInsert fd.1
  ({ cursor := cursor, lastTs := lastTs, fetchedCount := fetchedCount
     insertedCount := insertedCount, enqueued := enqueued, iter := st.iter + 1 },
   page.hasMore && !fd.2 && cursorTruthy cursor)

/-- How a worker run ends: loop finished (`COMPLETED`), stop flag observed
(`RUNNING`), an error propagated out, or the script ran out while a fetch
was pending. -/
inductive WorkerOutcome where
  | completed (st : LoopState)
  | stopped (st : LoopState)
  | failed (e : FetchError) (st : LoopState)
  | starved (st : LoopState)
deriving Repr, DecidableEq

/-- The worker loop of `runWorker` over a scripted source. Each entry of the
script is the outcome of the in-flight fetch awaited at the top of an
iteration. An `HttpError` with status 400 while `lastTs` is known re-forges
the cursor from `lastTs` and restarts the fetch; any other error
propagates. A successful page runs `pageStep`; the loop continues exactly
when another fetch was scheduled. -/
def runLoop (ctx : WorkerCtx) : List (Except FetchError NormalizedPage) → LoopState → WorkerOutcome
  | [], st => if ctx.shouldStop st.iter then .stopped st else .starved st
  | r :: rest, st =>
    if ctx.shouldStop st.iter then .stopped st
    else
      match r with
      | .error e =>
        match st.lastTs with
        | some t =>
          if e = .http 400 then
            runLoop ctx rest { st with cursor := some (forgeCursor t), iter := st.iter + 1 }
          else .failed e st
        | none => .failed e st
      | .ok page =>
        let sc := pageStep ctx st page
        if sc.2 then runLoop ctx rest sc.1
        else if ctx.shouldStop sc.1.iter then .stopped sc.1
        else .completed sc.1

/-- `runWorker` from `worker.ts`: forge the initial cursor from
`chunkEndTs` when the checkpoint has none, return immediately when the
checkpoint is already `COMPLETED`, else run the loop. -/
def runWorkerModel (stop : Nat → Bool) (dbInsert : List IngestionEvent → Nat)
    (cp : CheckpointRow) (script : List (Except FetchError NormalizedPage)) :
    WorkerOutcome :=
  let cursor := match cp.cursor with
    | none => some (forgeCursor cp.chunkEndTs)
    | some c => some c
  let st0 : LoopState :=
    { cursor := cursor, lastTs := cp.lastTs, fetchedCount := cp.fetchedCount
      insertedCount := cp.insertedCount, enqueued := [], iter := 0 }
  if cp.status = .completed then .completed st0
  else
    runLoop ⟨cp.chunkStartTs, cp.chunkEndTs, cp.workerId, stop, dbInsert⟩ script st0

/-! ### C4: the boundary filter -/

lemma pageStep_stops (ctx : WorkerCtx) (st : LoopState) (page : NormalizedPage)
    (hdone : (filterLoop ctx.chunkStartTs ctx.chunkEndTs
      (toIngestionEvents page.events)).2 = true) :
    (pageStep ctx st page).2 = false := by
  simp [pageStep, hdone]

lemma filterLoop_subset (a b : Int) :
    ∀ evs, ∀ e ∈ (filterLoop a b evs).1,
      e ∈ evs ∧ a ≤ e.timestampMs ∧ e.timestampMs < b := by
  intro evs
  induction evs with
  | nil => simp [filterLoop]
  | cons x rest ih =>
    intro e he
    by_cases h1 : x.timestampMs < a
    · simp [filterLoop, h1] at he
    · by_cases h2 : b ≤ x.timestampMs
      · simp only [filterLoop, if_neg h1, if_pos h2] at he
        obtain ⟨hm, hb1, hb2⟩ := ih e he
        exact ⟨List.mem_cons_of_mem _ hm, hb1, hb2⟩
      · simp only [filterLoop, if_neg h1, if_neg h2] at he
        rcases List.mem_cons.mp he with rfl | he
        · exact ⟨List.mem_cons_self _ _, by omega, by omega⟩
        · obtain ⟨hm, hb1, hb2⟩ := ih e he
          exact ⟨List.mem_cons_of_mem _ hm, hb1, hb2⟩

lemma filterLoop_done_iff (a b : Int) :
    ∀ evs, (filterLoop a b evs).2 = true ↔ ∃ e ∈ evs, e.timestampMs < a := by
  intro evs
  induction evs with
  | nil => simp [filterLoop]
  | cons x rest ih =>
    by_cases h1 : x.timestampMs < a
    · simp only [filterLoop, if_pos h1]
      constructor
      · intro _
        exact ⟨x, List.mem_cons_self _ _, h1⟩
      · intro _
        trivial
    · by_cases h2 : b ≤ x.timestampMs
      · simp only [filterLoop, if_neg h1, if_pos h2]
        rw [ih]
        constructor
        · rintro ⟨e, he, hlt⟩
          exact ⟨e, List.mem_cons_of_mem _ he, hlt⟩
        · rintro ⟨e, he, hlt⟩
          rcases List.mem_cons.mp he with rfl | he
          · omega
          · exact ⟨e, he, hlt⟩
      · simp only [filterLoop, if_neg h1, if_neg h2]
        rw [ih]
        constructor
        · rintro ⟨e, he, hlt⟩
          exact ⟨e, List.mem_cons_of_mem _ he, hlt⟩
        · rintro ⟨e, he, hlt⟩
          rcases List.mem_cons.mp he with rfl | he
          · omega
          · exact ⟨e, he, hlt⟩

lemma filterLoop_complete (a b : Int) :
    ∀ evs, evs.Pairwise (fun x y => y.timestampMs ≤ x.timestampMs) →
      ∀ e ∈ evs, a ≤ e.timestampMs → e.timestampMs < b →
        e ∈ (filterLoop a b evs).1 := by
  intro evs
  induction evs with
  | nil => simp
  | cons x rest ih =>
    intro hsorted e he ha hb
    have hpc := List.pairwise_cons.mp hsorted
    by_cases h1 : x.timestampMs < a
    · rcases List.mem_cons.mp he with rfl | he
      · omega
      · have := hpc.1 e he
        omega
    · by_cases h2 : b ≤ x.timestampMs
      · simp only [filterLoop, if_neg h1, if_pos h2]
        rcases List.mem_cons.mp he with rfl | he
        · omega
        · exact ih hpc.2 e he ha hb
      · simp only [filterLoop, if_neg h1, if_neg h2]
        rcases List.mem_cons.mp he with rfl | he
        · exact List.mem_cons_self _ _
        · exact List.mem_cons_of_mem _ (ih hpc.2 e he ha hb)

/-- The boundary-filter properties of a page whose valid events are `evs`
under the partition `[a, b)`: every in-range event is kept, only in-range
events of the page are kept, the done flag is raised exactly when some
event lies below the partition, and a raised done flag means the worker
schedules no further fetch (it finishes after this batch). -/
def BoundaryFilterSpec (a b : Int) (evs : List IngestionEvent) : Prop :=
  (∀ e ∈ evs, a ≤ e.timestampMs → e.timestampMs < b → e ∈ (filterLoop a b evs).1)
  ∧ (∀ e ∈ (filterLoop a b evs).1, e ∈ evs ∧ a ≤ e.timestampMs ∧ e.timestampMs < b)
  ∧ ((filterLoop a b evs).2 = true ↔ ∃ e ∈ evs, e.timestampMs < a)
  ∧ (∀ (ctx : WorkerCtx) (st : LoopState) (page : NormalizedPage),
      ctx.chunkStartTs = a → ctx.chunkEndTs = b →
      toIngestionEvents page.events = evs →
      (filterLoop a b evs).2 = true → (pageStep ctx st page).2 = false)

/-- C4 counterexample: the filter breaks at the first below-range event, so
in the page `[below-range@1767…, in-range@1768.5…]` with chunk
`[1768…, 1769…)` the valid in-range event is dropped from the enqueued
batch, refuting the claim that every valid in-range event of the page is
included. -/
theorem runWorker_filter_drops_inrange_after_below :
    (filterLoop 1768000000000 1769000000000 (toIngestionEvents
        [⟨.str ['l', 'o'], .num 1767000000000, []⟩,
         ⟨.str ['h', 'i'], .num 1768500000000, []⟩])).1 = []
    ∧ toIngestionEvent ⟨.str ['h', 'i'], .num 1768500000000, []⟩
        = some ⟨['h', 'i'], 1768500000000, []⟩
    ∧ (1768000000000 : Int) ≤ 1768500000000
    ∧ (1768500000000 : Int) < 1769000000000 := by
  refine ⟨?_, ?_, by norm_num, by norm_num⟩ <;> decide

/-- C4 amended: for pages whose valid events arrive in non-increasing
timestamp order (as server pages do), the worker enqueues exactly the
in-range events: every valid event with `chunkStartTs ≤ ts < chunkEndTs` is
kept and everything outside is excluded; seeing any event below
`chunkStartTs` raises the done flag, after which no further fetch is
scheduled. On an out-of-order page, the break at the first below-range
event can also drop in-range events that follow it. -/
theorem runWorker_boundary_filter (a b : Int) (evs : List IngestionEvent)
    (hsorted : evs.Pairwise (fun x y => y.timestampMs ≤ x.timestampMs)) :
    BoundaryFilterSpec a b evs := by
  refine ⟨filterLoop_complete a b evs hsorted, filterLoop_subset a b evs,
    filterLoop_done_iff a b evs, ?_⟩
  intro ctx st page h1 h2 h3 hdone
  exact pageStep_stops ctx st page (by rw [h1, h2, h3]; exact hdone)

/-- Witness for the amended C4 at a concrete descending page containing an
in-range, an above-range and a below-range event. -/
theorem runWorker_boundary_filter_witness :
    (toIngestionEvents
        [⟨.str ['h', 'i'], .num 1769500000000, []⟩,
         ⟨.str ['i', 'n'], .num 1768500000000, []⟩,
         ⟨.str ['l', 'o'], .num 1767000000000, []⟩]).Pairwise
        (fun x y => y.timestampMs ≤ x.timestampMs)
    ∧ BoundaryFilterSpec 1768000000000 1769000000000
        (toIngestionEvents
          [⟨.str ['h', 'i'], .num 1769500000000, []⟩,
           ⟨.str ['i', 'n'], .num 1768500000000, []⟩,
           ⟨.str ['l', 'o'], .num 1767000000000, []⟩]) :=
  ⟨by decide, runWorker_boundary_filter 1768000000000 1769000000000 _ (by decide)⟩

/-! ### C8: cursor-expiry recovery -/

/-- The recovery contract of the worker's fetch layer for a state `st` with
the pending fetch failing: a 400 `HttpError` while `lastTs` is known
re-forges a cursor decoding to `lastTs` and restarts the loop without
propagating; every other error — and a 400 with `lastTs` unknown —
propagates out. -/
def CursorRecoverySpec (ctx : WorkerCtx) (st : LoopState)
    (rest : List (Except FetchError NormalizedPage)) : Prop :=
  (∀ t : Int, st.lastTs = some t →
    runLoop ctx (.error (.http 400) :: rest) st
        = runLoop ctx rest { st with cursor := some (forgeCursor t), iter := st.iter + 1 }
      ∧ decodeCursorTimestamp (forgeCursor t) = some t)
  ∧ (∀ e : FetchError, e ≠ .http 400 ∨ st.lastTs = none →
      runLoop ctx (.error e :: rest) st = .failed e st)

/-- C8: when the awaited fetch fails with `HttpError` status 400 and
`lastTs` is known, the worker re-forges a cursor whose decoded timestamp is
`lastTs` and restarts fetching without propagating the error; any other
fetch error, and a 400 with `lastTs` unknown, propagates out of the
worker. -/
theorem runWorker_cursor_expiry_recovery (ctx : WorkerCtx) (st : LoopState)
    (rest : List (Except FetchError NormalizedPage))
    (hstop : ctx.shouldStop st.iter = false) :
    CursorRecoverySpec ctx st rest := by
  constructor
  · intro t ht
    constructor
    · simp only [runLoop, hstop, Bool.false_eq_true, if_false, ht,
        eq_self_iff_true, if_true]
    · exact decode_forge t
  · intro e he
    rcases he with he | he
    · cases hlt : st.lastTs with
      | none => simp [runLoop, hstop, hlt]
      | some t => simp [runLoop, hstop, hlt, he]
    · simp [runLoop, hstop, he]

/-- Witness for C8 at a concrete never-stopping context and a state with
`lastTs = 1768400000000`. -/
theorem runWorker_cursor_expiry_recovery_witness :
    (⟨1768000000000, 1769000000000, 0, fun _ => false,
        fun l => l.length⟩ : WorkerCtx).shouldStop
      (⟨some ['c'], some 1768400000000, 2, 1, [], 0⟩ : LoopState).iter = false
    ∧ CursorRecoverySpec
        ⟨1768000000000, 1769000000000, 0, fun _ => false, fun l => l.length⟩
        ⟨some ['c'], some 1768400000000, 2, 1, [], 0⟩ [] :=
  ⟨rfl, runWorker_cursor_expiry_recovery _ _ [] rfl⟩

/-! ### C10: lastTs is the minimum over all valid events -/

lemma foldl_min_le_init (rest : List IngestionEvent) : ∀ init : Int,
    rest.foldl (fun a x => min a x.timestampMs) init ≤ init := by
  induction rest with
  | nil => intro init; simp
  | cons x rs ih =>
    intro init
    simp only [List.foldl_cons]
    exact le_trans (ih _) (min_le_left _ _)

lemma foldl_min_le_mem (rest : List IngestionEvent) : ∀ init : Int, ∀ e ∈ rest,
    rest.foldl (fun a x => min a x.timestampMs) init ≤ e.timestampMs := by
  induction rest with
  | nil => simp
  | cons x rs ih =>
    intro init e he
    simp only [List.foldl_cons]
    rcases List.mem_cons.mp he with rfl | he
    · exact le_trans (foldl_min_le_init rs _) (min_le_right _ _)
    · exact ih _ e he

lemma foldl_min_mem (rest : List IngestionEvent) : ∀ init : Int,
    rest.foldl (fun a x => min a x.timestampMs) init = init
      ∨ ∃ e ∈ rest, rest.foldl (fun a x => min a x.timestampMs) init = e.timestampMs := by
  induction rest with
  | nil => intro init; exact Or.inl rfl
  | cons x rs ih =>
    intro init
    simp only [List.foldl_cons]
    rcases ih (min init x.timestampMs) with h | ⟨e, he, h⟩
    · rcases le_or_lt init x.timestampMs with hle | hlt
      · left
        rw [h, min_eq_left hle]
      · right
        exact ⟨x, List.mem_cons_self _ _, by rw [h, min_eq_right (le_of_lt hlt)]⟩
    · right
      exact ⟨e, List.mem_cons_of_mem _ he, h⟩

lemma minTs_le (evs : List IngestionEvent) (e : IngestionEvent) (he : e ∈ evs) :
    minTs evs ≤ e.timestampMs := by
  cases evs with
  | nil => cases he
  | cons x rs =>
    simp only [minTs]
    rcases List.mem_cons.mp he with rfl | he
    · exact foldl_min_le_init rs _
    · exact foldl_min_le_mem rs _ e he

lemma minTs_mem (evs : List IngestionEvent) (hne : evs ≠ []) :
    minTs evs ∈ evs.map IngestionEvent.timestampMs := by
  cases evs with
  | nil => exact absurd rfl hne
  | cons x rs =>
    simp only [minTs, List.map_cons]
    rcases foldl_min_mem rs x.timestampMs with h | ⟨e, he, h⟩
    · rw [h]
      exact List.mem_cons_self _ _
    · rw [h]
      exact List.mem_cons_of_mem _ (List.mem_map_of_mem _ he)

/-- What C10 claims of a page step: `lastTs` becomes the minimum timestamp
over all valid events of the page — including events outside the worker's
partition — and in particular some page leaves `lastTs` (hence a recovery
cursor forged from it after a 400) strictly below the worker's own
`chunkStartTs`. -/
def LastTsMinSpec (ctx : WorkerCtx) (st : LoopState) (page : NormalizedPage) : Prop :=
  (∃ mts : Int, (pageStep ctx st page).1.lastTs = some mts
    ∧ mts ∈ (toIngestionEvents page.events).map IngestionEvent.timestampMs
    ∧ ∀ e ∈ toIngestionEvents page.events, mts ≤ e.timestampMs)
  ∧ ∃ (ctx2 : WorkerCtx) (st2 : LoopState) (page2 : NormalizedPage) (t : Int),
      toIngestionEvents page2.events ≠ []
      ∧ (pageStep ctx2 st2 page2).1.lastTs = some t
      ∧ decodeCursorTimestamp (forgeCursor t) = some t
      ∧ t < ctx2.chunkStartTs

/-- C10: after processing a page with at least one valid event, the worker
sets `lastTs` to the minimum timestamp over all valid events of the page,
out-of-range ones included; consequently some pages leave `lastTs` — and
hence the decoded timestamp of a recovery cursor forged from it — strictly
below the worker's own `chunkStartTs`. -/
theorem runWorker_lastTs_min_all_events (ctx : WorkerCtx) (st : LoopState)
    (page : NormalizedPage) (hne : toIngestionEvents page.events ≠ []) :
    LastTsMinSpec ctx st page := by
  constructor
  · refine ⟨minTs (toIngestionEvents page.events), ?_,
      minTs_mem _ hne, fun e he => minTs_le _ e he⟩
    have hempty : (toIngestionEvents page.events).isEmpty = false := by
      cases hh : toIngestionEvents page.events with
      | nil => exact absurd hh hne
      | cons c cs => rfl
    simp [pageStep, hempty]
  · refine ⟨⟨1768000000000, 1769000000000, 0, fun _ => false, fun _ => 0⟩,
      ⟨some ['c'], none, 0, 0, [], 0⟩,
      ⟨[⟨.str ['i', 'n'], .num 1768500000000, []⟩,
        ⟨.str ['l', 'o'], .num 1767000000000, []⟩], true, some ['c'], none⟩,
      1767000000000, by decide, ?_, decode_forge 1767000000000, by norm_num⟩
    rfl

/-- Witness for C10 at a concrete page holding one valid event. -/
theorem runWorker_lastTs_min_all_events_witness :
    toIngestionEvents [⟨.str ['e', '1'], .num 1768500000000, []⟩] ≠ []
    ∧ LastTsMinSpec
        ⟨1768000000000, 1769000000000, 0, fun _ => false, fun l => l.length⟩
        ⟨some ['c'], none, 0, 0, [], 0⟩
        ⟨[⟨.str ['e', '1'], .num 1768500000000, []⟩], true, some ['c'], none⟩ :=
  ⟨by decide, runWorker_lastTs_min_all_events _ _ _ (by decide)⟩

end DataSync
